import Mathlib

/-!
Verification of the ws-proxy websocket debug relay (`src/main.rs`) against its
natural-language specification.

The development shallowly embeds the program:

* the JSON collaborator (`serde_json::from_str` / `serde_json::to_string_pretty`,
  an external library used by `pretty_print`) is modelled by an executable
  recursive-descent parser `fromStr` and the 2-space-indent pretty serializer
  `toStringPretty` over the value type `Json`.  The model covers JSON documents
  whose numbers are integer literals and whose strings contain no escape
  sequences (and no control characters); on that fragment it follows the
  library's observable behavior (whitespace handling, duplicate-key last-wins,
  keys kept in sorted order as with the default `BTreeMap`-backed map,
  trailing-garbage rejection, leading-zero rejection).
* `pretty_print`, `log_to_file` and `Handler::on_message` are translated
  directly; the fallible transcript write is an explicit `Except` argument,
  websocket `Sender` handles are connection ids, and the `Rc<RefCell<...>>`
  peer slots become fields of an explicit state `Sys` threaded through a step
  function over connection events.
* the CLI surface of `main` is modelled by `mainModel`, with the external
  `url::Url::parse` collaborator abstracted as a validity predicate.
-/

namespace WsProxy

/-! ## Messages (the `ws::Message` payload type) -/

/-- A websocket message: text or binary, exactly as `ws::Message`. -/
inductive Message where
  | text (s : String) : Message
  | binary (bytes : List Nat) : Message
deriving DecidableEq

/-! ## JSON values, modelling `serde_json::Value` -/

mutual
/-- JSON document model for the `serde_json` collaborator (integer numbers,
escape-free strings). -/
inductive Json where
  | null : Json
  | bool (b : Bool) : Json
  | num (n : Int) : Json
  | str (s : String) : Json
  | arr (xs : JsonList) : Json
  | obj (kvs : JsonMembers) : Json
/-- A list of JSON values (array elements). -/
inductive JsonList where
  | nil : JsonList
  | cons (hd : Json) (tl : JsonList) : JsonList
/-- The key/value members of a JSON object, kept sorted by key as in the
default `BTreeMap`-backed `serde_json::Map`. -/
inductive JsonMembers where
  | nil : JsonMembers
  | cons (k : String) (v : Json) (tl : JsonMembers) : JsonMembers
end

/-- Append one element at the end of a `JsonList`. -/
def appendL : JsonList → Json → JsonList
  | .nil, v => .cons v .nil
  | .cons x xs, v => .cons x (appendL xs v)

/-- Concatenate two `JsonList`s. -/
def concatL : JsonList → JsonList → JsonList
  | .nil, ys => ys
  | .cons x xs, ys => .cons x (concatL xs ys)

/-- Append one member at the end of a member list. -/
def appendM (kvs : JsonMembers) (k : String) (v : Json) : JsonMembers :=
  match kvs with
  | .nil => .cons k v .nil
  | .cons k2 v2 tl => .cons k2 v2 (appendM tl k v)

/-- Concatenate two member lists. -/
def concatM : JsonMembers → JsonMembers → JsonMembers
  | .nil, ys => ys
  | .cons k v tl, ys => .cons k v (concatM tl ys)

/-- Lexicographic strict order on character lists by code point; on strings it
coincides with Rust's byte-wise `str` ordering, because UTF-8 byte order
preserves code-point order. -/
def ltChars : List Char → List Char → Bool
  | [], [] => false
  | [], _ :: _ => true
  | _ :: _, [] => false
  | a :: as, b :: bs =>
    if a.toNat < b.toNat then true
    else if b.toNat < a.toNat then false
    else ltChars as bs

/-- The `Ord` used by the `BTreeMap` behind `serde_json::Map`. -/
def ltStr (a b : String) : Bool := ltChars a.data b.data

/-- Ordered insertion with replacement, the `BTreeMap::insert` behavior used by
`serde_json`'s object builder: equal key replaces (duplicate keys: last one
wins), otherwise the member is placed at its sorted position. -/
def insertKV (k : String) (v : Json) : JsonMembers → JsonMembers
  | .nil => .cons k v .nil
  | .cons k2 v2 tl =>
    if k = k2 then .cons k v tl
    else if ltStr k k2 then .cons k v (.cons k2 v2 tl)
    else .cons k2 v2 (insertKV k v tl)

/-- The keys of a member list, in order. -/
def keysOfM : JsonMembers → List String
  | .nil => []
  | .cons k _ tl => k :: keysOfM tl

/-! ## Lexical helpers of the JSON parser model -/

/-- JSON insignificant whitespace. -/
def isJsonWs (c : Char) : Bool :=
  c = ' ' || c = '\t' || c = '\n' || c = '\r'

/-- Skip insignificant whitespace. -/
def skipWs : List Char → List Char
  | [] => []
  | c :: rest => if isJsonWs c then skipWs rest else c :: rest

/-- ASCII decimal digit test. -/
def isDigitCh (c : Char) : Bool := 48 ≤ c.toNat && c.toNat ≤ 57

/-- Value of an ASCII digit. -/
def digitVal (c : Char) : Nat := c.toNat - 48

/-- The ASCII digit for `k % 10`. -/
def digitCh (k : Nat) : Char :=
  match k with
  | 0 => '0' | 1 => '1' | 2 => '2' | 3 => '3' | 4 => '4'
  | 5 => '5' | 6 => '6' | 7 => '7' | 8 => '8' | _ => '9'

/-- String body after the opening quote, up to the closing quote.  The model
accepts no escape sequences and no control characters. -/
def parseStrAux : List Char → Option (List Char × List Char)
  | [] => none
  | c :: rest =>
    if c = '"' then some ([], rest)
    else if c = '\\' ∨ c.toNat < 32 then none
    else
      match parseStrAux rest with
      | some (s, r) => some (c :: s, r)
      | none => none

/-- Longest digit run at the head of the input. -/
def takeDigits : List Char → (List Char × List Char)
  | [] => ([], [])
  | c :: rest =>
    if isDigitCh c then
      let p := takeDigits rest
      (c :: p.1, p.2)
    else ([], c :: rest)

/-- Decimal value of a digit run. -/
def natFromDigits (ds : List Char) : Nat :=
  ds.foldl (fun acc c => 10 * acc + digitVal c) 0

/-- Integer literal: optional minus sign, then digits, with the JSON
leading-zero restriction. -/
def parseIntLit : List Char → Option (Int × List Char)
  | [] => none
  | c :: rest =>
    if c = '-' then
      match takeDigits rest with
      | ([], _) => none
      | (d :: ds, r) =>
        if d = '0' ∧ ds ≠ [] then none
        else some (-(natFromDigits (d :: ds) : Int), r)
    else
      match takeDigits (c :: rest) with
      | ([], _) => none
      | (d :: ds, r) =>
        if d = '0' ∧ ds ≠ [] then none
        else some ((natFromDigits (d :: ds) : Int), r)

/-- Match an exact character sequence. -/
def expectChars : List Char → List Char → Option (List Char)
  | [], cs => some cs
  | _ :: _, [] => none
  | k :: ks, c :: cs => if c = k then expectChars ks cs else none

/-! ## The JSON parser model (`serde_json::from_str`) -/

mutual
/-- Parse one JSON value (fuel-indexed recursive descent). -/
def parseVal : Nat → List Char → Option (Json × List Char)
  | 0, _ => none
  | fuel + 1, cs =>
    match skipWs cs with
    | [] => none
    | c :: rest =>
      if c = 'n' then
        match expectChars ['u', 'l', 'l'] rest with
        | some r => some (Json.null, r)
        | none => none
      else if c = 't' then
        match expectChars ['r', 'u', 'e'] rest with
        | some r => some (Json.bool true, r)
        | none => none
      else if c = 'f' then
        match expectChars ['a', 'l', 's', 'e'] rest with
        | some r => some (Json.bool false, r)
        | none => none
      else if c = '"' then
        match parseStrAux rest with
        | some (s, r) => some (Json.str (String.mk s), r)
        | none => none
      else if c = '[' then
        match skipWs rest with
        | ']' :: r => some (Json.arr JsonList.nil, r)
        | r => parseElems fuel r JsonList.nil
      else if c = '\x7b' then
        match skipWs rest with
        | '\x7d' :: r => some (Json.obj JsonMembers.nil, r)
        | r => parseMembers fuel r JsonMembers.nil
      else
        match parseIntLit (c :: rest) with
        | some (n, r) => some (Json.num n, r)
        | none => none

/-- Parse the remaining elements of a non-empty array. -/
def parseElems : Nat → List Char → JsonList → Option (Json × List Char)
  | 0, _, _ => none
  | fuel + 1, cs, acc =>
    match parseVal fuel cs with
    | none => none
    | some (v, r) =>
      match skipWs r with
      | ',' :: r2 => parseElems fuel r2 (appendL acc v)
      | ']' :: r2 => some (Json.arr (appendL acc v), r2)
      | _ => none

/-- Parse the remaining members of a non-empty object, inserting each into the
sorted member map (duplicate keys: last wins). -/
def parseMembers : Nat → List Char → JsonMembers → Option (Json × List Char)
  | 0, _, _ => none
  | fuel + 1, cs, acc =>
    match skipWs cs with
    | '"' :: cs1 =>
      match parseStrAux cs1 with
      | none => none
      | some (k, r) =>
        match skipWs r with
        | ':' :: r2 =>
          match parseVal fuel r2 with
          | none => none
          | some (v, r3) =>
            match skipWs r3 with
            | ',' :: r4 => parseMembers fuel r4 (insertKV (String.mk k) v acc)
            | '\x7d' :: r4 => some (Json.obj (insertKV (String.mk k) v acc), r4)
            | _ => none
        | _ => none
    | _ => none
end

/-- The `serde_json::from_str::<Value>` model: parse one document and require
that only whitespace remains. -/
def fromStr (s : String) : Option Json :=
  match parseVal (2 * s.data.length + 2) s.data with
  | some (v, r) => if skipWs r = [] then some v else none
  | none => none

/-! ## The JSON pretty serializer model (`serde_json::to_string_pretty`) -/

/-- The indentation of the pretty serializer: two spaces per nesting level. -/
def indentChars (d : Nat) : List Char := List.replicate (2 * d) ' '

/-- Decimal digits of `n`, least significant first (fuel-indexed so that the
definition is structural; `n + 1` fuel always suffices). -/
def natToCharsRev : Nat → Nat → List Char
  | 0, _ => []
  | fuel + 1, n =>
    if n < 10 then [digitCh n]
    else digitCh (n % 10) :: natToCharsRev fuel (n / 10)

/-- Decimal representation of a natural number. -/
def natToChars (n : Nat) : List Char := (natToCharsRev (n + 1) n).reverse

/-- Decimal representation of an integer. -/
def intToChars (n : Int) : List Char :=
  if n < 0 then '-' :: natToChars n.natAbs else natToChars n.toNat

mutual
/-- Pretty-serialize a JSON value at nesting depth `d`, exactly in the format
of `serde_json::to_string_pretty` (2-space indent, `"key": value`, newline
separated items, empty containers on one line). -/
def printJ : Nat → Json → List Char
  | _, .null => ['n', 'u', 'l', 'l']
  | _, .bool true => ['t', 'r', 'u', 'e']
  | _, .bool false => ['f', 'a', 'l', 's', 'e']
  | _, .num n => intToChars n
  | _, .str s => '"' :: (s.data ++ ['"'])
  | _, .arr .nil => ['[', ']']
  | d, .arr (.cons x xs) =>
    '[' :: '\n' :: (printItems (d + 1) (.cons x xs) ++ '\n' :: (indentChars d ++ [']']))
  | _, .obj .nil => ['\x7b', '\x7d']
  | d, .obj (.cons k v kvs) =>
    '\x7b' :: '\n' :: (printMembers (d + 1) (.cons k v kvs) ++ '\n' :: (indentChars d ++ ['\x7d']))

/-- Pretty-serialize array items, one per line at depth `d`. -/
def printItems : Nat → JsonList → List Char
  | _, .nil => []
  | d, .cons x .nil => indentChars d ++ printJ d x
  | d, .cons x (.cons y ys) =>
    indentChars d ++ (printJ d x ++ ',' :: '\n' :: printItems d (.cons y ys))

/-- Pretty-serialize object members, one per line at depth `d`. -/
def printMembers : Nat → JsonMembers → List Char
  | _, .nil => []
  | d, .cons k v .nil =>
    indentChars d ++ ('"' :: (k.data ++ '"' :: ':' :: ' ' :: printJ d v))
  | d, .cons k v (.cons k2 v2 kvs) =>
    indentChars d ++
      ('"' :: (k.data ++ '"' :: ':' :: ' ' :: (printJ d v ++ ',' :: '\n' :: printMembers d (.cons k2 v2 kvs))))
end

/-- The `serde_json::to_string_pretty` model.  (On `Value` inputs the library
call is infallible, so the `unwrap_or_else` fallback of `pretty_print` is dead
code and the model is total.) -/
def toStringPretty (v : Json) : String := String.mk (printJ 0 v)

/-! ## `pretty_print` (src/main.rs lines 173-201) -/

/-- `format!("\x7b:?\x7d", bytes)` on a `Vec<u8>`: comma-space separated
decimal bytes. -/
def bytesReprAux : List Nat → String
  | [] => ""
  | [b] => String.mk (natToChars b)
  | b :: rest => String.mk (natToChars b) ++ ", " ++ bytesReprAux rest

/-- The Rust `Debug` rendering of the byte vector of a binary message. -/
def bytesRepr (bs : List Nat) : String := "[" ++ bytesReprAux bs ++ "]"

/-- Translation of `pretty_print`: binary messages become a `Binary(..)`
description; text is returned raw unless `prettify_json` is set and the text
parses as JSON, in which case the pretty re-serialization is returned; a parse
failure falls back to the raw text. -/
def pretty_print (msg : Message) (prettifyJson : Bool) : String :=
  match msg with
  | .binary bytes => "Binary(" ++ bytesRepr bytes ++ ")"
  | .text raw =>
    if prettifyJson then
      match fromStr raw with
      | some value => toStringPretty value
      | none => raw
    else raw

/-! ## Well-formedness of parsed JSON values, and fuel bookkeeping -/

/-- Characters the modelled string parser accepts: no quote, no backslash,
no control character. -/
def charOK (c : Char) : Bool := !(c == '"') && !(c == '\\') && decide (32 ≤ c.toNat)

/-- Strings in the modelled JSON fragment. -/
def strOK (s : String) : Bool := s.data.all charOK

/-- Strict sortedness (each key below every later key) of an object's keys,
the invariant of the `BTreeMap`-backed member map. -/
def sortedKeys : List String → Bool
  | [] => true
  | k :: rest => rest.all (fun k2 => ltStr k k2) && sortedKeys rest

mutual
/-- Values the parser model can produce: strings are escape-free and object
member lists are strictly sorted by key. -/
def wfJ : Json → Bool
  | .null => true
  | .bool _ => true
  | .num _ => true
  | .str s => strOK s
  | .arr xs => wfL xs
  | .obj kvs => wfM kvs && sortedKeys (keysOfM kvs)
/-- All elements well-formed. -/
def wfL : JsonList → Bool
  | .nil => true
  | .cons x xs => wfJ x && wfL xs
/-- All keys acceptable and all values well-formed. -/
def wfM : JsonMembers → Bool
  | .nil => true
  | .cons k v tl => strOK k && wfJ v && wfM tl
end

mutual
/-- An upper bound on the parser fuel consumed when re-reading the printed
form of a value. -/
def needJ : Json → Nat
  | .arr xs => 2 + needL xs
  | .obj kvs => 2 + needM kvs
  | _ => 1
/-- Fuel bound for the elements of an array. -/
def needL : JsonList → Nat
  | .nil => 0
  | .cons x xs => 1 + needJ x + needL xs
/-- Fuel bound for the members of an object. -/
def needM : JsonMembers → Nat
  | .nil => 0
  | .cons _ v tl => 1 + needJ v + needM tl
end

/-- The input does not continue with a digit (so a preceding number literal
cannot be extended). -/
def noDigitHead : List Char → Bool
  | [] => true
  | c :: _ => !(isDigitCh c)

/-- The characters that can start the printed form of a JSON value. -/
def startOK (c : Char) : Bool :=
  c == 'n' || c == 't' || c == 'f' || c == '"' || c == '[' || c == '\x7b' ||
    c == '-' || isDigitCh c

example : pretty_print (Message.text "\x7b\"a\":1\x7d") true = "\x7b\n  \"a\": 1\n\x7d" := rfl

example : pretty_print (Message.text "\x7bbad json") true = "\x7bbad json" := rfl

example : pretty_print (Message.binary [1, 2, 255]) true = "Binary([1, 2, 255])" := rfl

example : pretty_print (Message.text "[1, \x7b\"b\":2,\"a\":null\x7d]") true
    = "[\n  1,\n  \x7b\n    \"a\": null,\n    \"b\": 2\n  \x7d\n]" := rfl

/-! ## The relay: handlers, peer slots and the event step function
(src/main.rs lines 60-160).  A `ws::Sender` handle is modelled by its
connection id. -/

/-- The two `Handler` enum variants.  The `Server` handler reads the shared
client slot at every message; the `Client` handler captured a clone of the
server `Sender` (here: its id) when it was built, together with its own
connection id.  Each also carries the `prettify_json` flag.  (The per-handler
log `File` is represented by the transcript records that `on_message`
emits.) -/
inductive Handler where
  | server (prettifyJson : Bool) : Handler
  | client (serverId : Nat) (connectionId : Nat) (prettifyJson : Bool) : Handler
deriving DecidableEq

/-- One `send` performed on a peer `Sender`: the target connection id and the
payload passed to `ws::Sender::send`. -/
structure Send where
  target : Nat
  payload : Message
deriving DecidableEq

/-- One transcript record appended by `log_to_file`: the per-connection tag
and the formatted body. -/
structure LogRecord where
  tag : String
  body : String
deriving DecidableEq

/-- The `[server]` tag (the `SERVER_PREFIX` constant). -/
def serverTag : String := "[server]"

/-- Translation of `log_to_file` (src/main.rs lines 163-171).  The outcome of
the underlying `write_fmt` is an explicit argument; the function always
completes, producing the record it tried to append together with the
`error!` diagnostics emitted for a failed write (`unwrap_or_else` swallows
the failure). -/
def log_to_file (tag : String) (msg : Message) (prettifyJson : Bool)
    (writeResult : Except String Unit) : LogRecord × List String :=
  (⟨tag, pretty_print msg prettifyJson⟩,
    match writeResult with
    | .ok _ => []
    | .error e => ["Error: " ++ e])

/-- The observable effects of one `on_message` call: peer sends, transcript
records, and `error!` log lines. -/
structure MsgEffects where
  sends : List Send
  records : List LogRecord
  errorLog : List String
deriving DecidableEq

/-- Translation of `Handler::on_message` (src/main.rs lines 133-156).  The
`Server` arm borrows the shared client slot (passed in as `clientSlot`),
panics via `assert!` when it is empty (`Except.error`), and otherwise sends
the message unchanged to the client before logging it; the `Client` arm sends
the message unchanged to the captured server handle and logs it under its
`[id: ..]` tag. -/
def on_message (h : Handler) (clientSlot : Option Nat) (msg : Message)
    (writeResult : Except String Unit) : Except String MsgEffects :=
  match h with
  | .server prettifyJson =>
    match clientSlot with
    | none => .error "assertion failed: client.is_some()"
    | some c =>
      let lr := log_to_file serverTag msg prettifyJson writeResult
      .ok ⟨[⟨c, msg⟩], [lr.1], lr.2⟩
  | .client serverId connectionId prettifyJson =>
    let lr := log_to_file ("[id: " ++ toString connectionId ++ "]") msg prettifyJson writeResult
    .ok ⟨[⟨serverId, msg⟩], [lr.1], lr.2⟩

/-- The shared state of `listen` (src/main.rs lines 60-106): the
`server: RefCell<Option<Rc<Sender>>>` slot, the
`client: Rc<RefCell<Option<Sender>>>` slot, the handlers the `Builder`
closure has built so far (newest first, keyed by connection id), and the
`prettify_json` configuration. -/
structure Sys where
  serverSlot : Option Nat
  clientSlot : Option Nat
  handlers : List (Nat × Handler)
  prettifyJson : Bool
deriving DecidableEq

/-- Connection events delivered by the `ws` transport. -/
inductive Event where
  | opened (id : Nat) : Event
  | received (id : Nat) (msg : Message) : Event
  | closed (id : Nat) : Event
deriving DecidableEq

/-- The state before any connection exists. -/
def initSys (prettifyJson : Bool) : Sys := ⟨none, none, [], prettifyJson⟩

/-- One event step of the relay.

* `opened id` runs the `Builder::build` closure: connection id `0` (the
  outbound connection to the server URL) stores itself in the server slot
  and becomes the `Server` handler; any other id overwrites the client slot
  and becomes a `Client` handler capturing the current server handle
  (`server.borrow().as_ref().unwrap()` — a panic, `Except.error`, if the
  server slot is still empty).
* `received id msg` runs `on_message` of the handler of `id` (with a
  successful transcript write).
* `closed id` runs `Handler::on_close`, which only emits a debug line and
  touches no state. -/
def step (st : Sys) (e : Event) : Except String (Sys × List Send) :=
  match e with
  | .opened id =>
    if id = 0 then
      .ok ({ st with serverSlot := some 0,
                     handlers := (0, Handler.server st.prettifyJson) :: st.handlers }, [])
    else
      match st.serverSlot with
      | none => .error "called Option::unwrap() on a None value"
      | some sid =>
        .ok ({ st with clientSlot := some id,
                       handlers := (id, Handler.client sid id st.prettifyJson) :: st.handlers }, [])
  | .received id msg =>
    match st.handlers.lookup id with
    | none => .ok (st, [])
    | some h =>
      match on_message h st.clientSlot msg (Except.ok ()) with
      | .error e => .error e
      | .ok eff => .ok (st, eff.sends)
  | .closed _ => .ok (st, [])

/-- Run a sequence of events from a state, collecting all sends; a handler
panic aborts the run. -/
def runFrom (st : Sys) : List Event → Except String (Sys × List Send)
  | [] => .ok (st, [])
  | e :: es =>
    match step st e with
    | .error msg => .error msg
    | .ok (st', outs) =>
      match runFrom st' es with
      | .error msg => .error msg
      | .ok (st'', outs') => .ok (st'', outs ++ outs')

/-- The role a connection plays (spec vocabulary: `Upstream`/`Server` vs
`Downstream`/`Client`). -/
inductive Role where
  | upstream : Role
  | downstream : Role
deriving DecidableEq

/-- The role of a handler variant. -/
def handlerRole : Handler → Role
  | .server _ => .upstream
  | .client _ _ _ => .downstream

/-- The role of a connection in a state, when it has a handler. -/
def roleOf (st : Sys) (id : Nat) : Option Role :=
  (st.handlers.lookup id).map handlerRole

/-- The opposite role. -/
def oppositeRole : Role → Role
  | .upstream => .downstream
  | .downstream => .upstream

/-- The client slot observed after running a trace from the initial state
(`none` when the run panicked). -/
def clientSlotAfter (prettifyJson : Bool) (es : List Event) : Option (Option Nat) :=
  match runFrom (initSys prettifyJson) es with
  | .ok (st, _) => some st.clientSlot
  | .error _ => none

/-! ## The command-line surface of `main` (src/main.rs lines 26-58) -/

/-- What an invocation of `main` does before (or instead of) starting the
relay. -/
inductive MainOutcome where
  | helpExit : MainOutcome
  | usageOnly : MainOutcome
  | badUrl (diagnostic : String) : MainOutcome
  | badPort (diagnostic : String) : MainOutcome
  | proxy (port : Nat) (serverUrl : String) (prettifyJson : Bool) : MainOutcome
deriving DecidableEq

/-- The argument filter of `main`: `--help` anywhere exits immediately with
the usage text (modelled as `none`); `--pretty-jsons` is removed from the
positional arguments and sets the flag. -/
def filterArgs : List String → Option (List String × Bool)
  | [] => some ([], false)
  | a :: rest =>
    if a = "--help" then none
    else if a = "--pretty-jsons" then
      match filterArgs rest with
      | none => none
      | some (args, _) => some (args, true)
    else
      match filterArgs rest with
      | none => none
      | some (args, p) => some (a :: args, p)

/-- Model of Rust's `str::parse::<u16>`: an optional `+` sign, then a
non-empty run of ASCII digits whose value fits in 16 bits; anything else is
an error. -/
def parseU16 (s : String) : Option Nat :=
  let cs := match s.data with
            | '+' :: rest => rest
            | cs => cs
  if cs.isEmpty then none
  else if cs.all isDigitCh then
    if natFromDigits cs ≤ 65535 then some (natFromDigits cs) else none
  else none

/-- Translation of `main`'s argument handling.  `url::Url::parse` is an
external collaborator, abstracted as the validity predicate `urlValid`.
With exactly two positional arguments the URL is checked first
(`Websocket URL .. is invalid` and `exit(-1)` on failure), then the port
(`Port number .. is invalid` and `exit(-1)` on failure); only when both
parse does the process go on to connect and listen (`proxy`).  Any other
number of positional arguments just prints the usage text. -/
def mainModel (urlValid : String → Bool) (args : List String) : MainOutcome :=
  match filterArgs args with
  | none => .helpExit
  | some (positional, prettifyJson) =>
    match positional with
    | [arg1, arg2] =>
      if urlValid arg1 then
        match parseU16 arg2 with
        | some port => .proxy port arg1 prettifyJson
        | none => .badPort ("Port number " ++ arg2 ++ " is invalid")
      else .badUrl ("Websocket URL " ++ arg1 ++ " is invalid")
    | _ => .usageOnly

/-- The process exit status of each outcome (`none`: the outcome does not
exit but starts the relay).  `std::process::exit(-1)` is the non-zero status
`-1`. -/
def exitStatus : MainOutcome → Option Int
  | .helpExit => some 0
  | .usageOnly => some 0
  | .badUrl _ => some (-1)
  | .badPort _ => some (-1)
  | .proxy _ _ _ => none

/-- Whether the outcome reaches `listen` (and hence `ws.connect`). -/
def attemptsConnect : MainOutcome → Bool
  | .proxy _ _ _ => true
  | _ => false

/-! ## Registry invariants -/

theorem lookup_cons (a k : Nat) (h : Handler) (l : List (Nat × Handler)) :
    List.lookup a ((k, h) :: l) = if a = k then some h else List.lookup a l := by
  simp only [List.lookup]
  by_cases h' : a = k
  · subst h'; simp
  · have hb : (a == k) = false := by simpa using h'
    rw [hb, if_neg h']

/-- Invariant of the reachable registry states: the server slot only ever
holds connection id 0 and implies a `Server` handler for id 0; `Server`
handlers exist only for id 0; every `Client` handler captured server id 0 and
its own id; the client slot points at a `Client` handler. -/
structure Inv (st : Sys) : Prop where
  serverIsZero : ∀ s, st.serverSlot = some s → s = 0
  serverHandler : ∀ s, st.serverSlot = some s →
    ∃ p, st.handlers.lookup 0 = some (Handler.server p)
  serverRoleOnlyZero : ∀ i p, st.handlers.lookup i = some (Handler.server p) → i = 0
  clientShape : ∀ i sid cid p, st.handlers.lookup i = some (Handler.client sid cid p) →
    sid = 0 ∧ cid = i ∧ i ≠ 0 ∧ ∃ q, st.handlers.lookup 0 = some (Handler.server q)
  clientSlotHandler : ∀ c, st.clientSlot = some c →
    ∃ p, st.handlers.lookup c = some (Handler.client 0 c p)

theorem inv_initSys (p : Bool) : Inv (initSys p) := by
  refine ⟨?_, ?_, ?_, ?_, ?_⟩ <;> intro a <;> intros <;> simp_all [initSys, List.lookup]

theorem inv_step (st : Sys) (e : Event) (st' : Sys) (outs : List Send)
    (hi : Inv st) (h : step st e = Except.ok (st', outs)) : Inv st' := by
  cases e with
  | opened id =>
    by_cases hid : id = 0
    · subst hid
      have hd : step st (Event.opened 0) = Except.ok
          ({ st with serverSlot := some 0,
                     handlers := (0, Handler.server st.prettifyJson) :: st.handlers }, []) := rfl
      rw [hd] at h
      injection h with h2
      injection h2 with ha hb
      subst ha; subst hb
      constructor
      · intro s hs; exact (Option.some.inj hs).symm
      · intro s _; exact ⟨st.prettifyJson, rfl⟩
      · intro i p hp
        rw [lookup_cons] at hp
        by_cases hi0 : i = 0
        · exact hi0
        · rw [if_neg hi0] at hp; exact hi.serverRoleOnlyZero i p hp
      · intro i sid cid p hp
        rw [lookup_cons] at hp
        by_cases hi0 : i = 0
        · rw [if_pos hi0] at hp; simp at hp
        · rw [if_neg hi0] at hp
          obtain ⟨h1, h2, h3, _⟩ := hi.clientShape i sid cid p hp
          exact ⟨h1, h2, h3, st.prettifyJson, rfl⟩
      · intro c hc
        obtain ⟨p, hp⟩ := hi.clientSlotHandler c hc
        obtain ⟨_, _, hc0, _⟩ := hi.clientShape c 0 c p hp
        exact ⟨p, by rw [lookup_cons, if_neg hc0]; exact hp⟩
    · cases hsv : st.serverSlot with
      | none =>
        have hd : step st (Event.opened id) =
            Except.error "called Option::unwrap() on a None value" := by
          simp only [step]; rw [if_neg hid, hsv]
        rw [hd] at h; cases h
      | some sid =>
        have hd : step st (Event.opened id) = Except.ok
            ({ st with clientSlot := some id,
                       handlers := (id, Handler.client sid id st.prettifyJson) :: st.handlers }, []) := by
          simp only [step]; rw [if_neg hid, hsv]
        rw [hd] at h
        injection h with h2
        injection h2 with ha hb
        subst ha; subst hb
        have hsid0 : sid = 0 := hi.serverIsZero sid hsv
        obtain ⟨q, hq⟩ := hi.serverHandler sid hsv
        have hq' : (((id, Handler.client sid id st.prettifyJson) :: st.handlers).lookup 0)
            = some (Handler.server q) := by
          rw [lookup_cons, if_neg (fun hh => hid hh.symm)]; exact hq
        constructor
        · intro s hs; exact hi.serverIsZero s hs
        · intro s _; exact ⟨q, hq'⟩
        · intro i p hp
          rw [lookup_cons] at hp
          by_cases hii : i = id
          · rw [if_pos hii] at hp; simp at hp
          · rw [if_neg hii] at hp; exact hi.serverRoleOnlyZero i p hp
        · intro i sid2 cid p hp
          rw [lookup_cons] at hp
          by_cases hii : i = id
          · rw [if_pos hii] at hp
            injection hp with hh
            injection hh with e1 e2 e3
            subst e1; subst e2
            refine ⟨hsid0, hii.symm, ?_, q, hq'⟩
            rw [hii]; exact hid
          · rw [if_neg hii] at hp
            obtain ⟨h1, h2, h3, _⟩ := hi.clientShape i sid2 cid p hp
            exact ⟨h1, h2, h3, q, hq'⟩
        · intro c hc
          have hc' : c = id := (Option.some.inj hc).symm
          subst hc'
          exact ⟨st.prettifyJson, by rw [lookup_cons, if_pos rfl, hsid0]⟩
  | received id msg =>
    simp only [step] at h
    split at h
    · injection h with h2; injection h2 with ha hb; subst ha; exact hi
    · split at h
      · cases h
      · injection h with h2; injection h2 with ha hb; subst ha; exact hi
  | closed id =>
    have hd : step st (Event.closed id) = Except.ok (st, []) := rfl
    rw [hd] at h
    injection h with h2
    injection h2 with ha hb
    subst ha
    exact hi

theorem inv_runFrom (es : List Event) (st st' : Sys) (outs : List Send)
    (hi : Inv st) (h : runFrom st es = Except.ok (st', outs)) : Inv st' := by
  induction es generalizing st outs with
  | nil =>
    simp only [runFrom] at h
    injection h with h2
    injection h2 with ha hb
    subst ha
    exact hi
  | cons e es ih =>
    simp only [runFrom] at h
    split at h
    · cases h
    · rename_i st1 outs1 hs
      split at h
      · cases h
      · rename_i st2 outs2 hr
        injection h with h2
        injection h2 with ha hb
        subst ha
        exact ih st1 outs2 (inv_step st e st1 outs1 hi hs) hr

/-! ## Claim theorems on the relay -/

/-- Claim C1: every message forwarded by `on_message` reaches the
opposite-role peer with its payload identical to what arrived — the same
`Message` value, so binary stays binary, text stays text, and no byte of the
payload is changed by the relay. -/
theorem c1_forward_preserves_payload (st : Sys) (id : Nat) (m : Message)
    (st2 : Sys) (sends : List Send)
    (h : step st (Event.received id m) = Except.ok (st2, sends)) :
    ∀ s ∈ sends, s.payload = m := by
  intro s hs
  simp only [step] at h
  split at h
  · injection h with h2; injection h2 with ha hb; subst hb; cases hs
  · rename_i hh hl
    split at h
    · cases h
    · rename_i eff hm
      injection h with h2; injection h2 with ha hb; subst hb
      cases hh with
      | server q =>
        cases hc : st.clientSlot with
        | none => rw [hc] at hm; simp [on_message] at hm
        | some c =>
          rw [hc] at hm
          simp only [on_message] at hm
          injection hm with hm2
          subst hm2
          simp at hs
          subst hs
          rfl
      | client sid cid q =>
        simp only [on_message] at hm
        injection hm with hm2
        subst hm2
        simp at hs
        subst hs
        rfl

/-- A registry state with the server stored and one client stored. -/
def stBoth : Sys :=
  ⟨some 0, some 5, [(5, Handler.client 0 5 false), (0, Handler.server false)], false⟩

theorem c1_witness :
    step stBoth (Event.received 0 (Message.text "ping")) =
      Except.ok (stBoth, [⟨5, Message.text "ping"⟩]) ∧
    (Send.mk 5 (Message.text "ping")).payload = Message.text "ping" := by
  refine ⟨rfl, ?_⟩
  exact c1_forward_preserves_payload stBoth 0 (Message.text "ping") stBoth
    [⟨5, Message.text "ping"⟩] rfl (Send.mk 5 (Message.text "ping")) (by simp)

/-- Claim C2: the `Builder::build` closure assigns the Upstream/Server role to
the connection with the reserved primary id 0 (storing it in the server
slot), and the Downstream/Client role to every connection with any other id
(storing it in the client slot). -/
theorem c2_role_assignment (st : Sys) (id : Nat) :
    (id = 0 → ∃ st2,
      step st (Event.opened id) = Except.ok (st2, []) ∧
      st2.serverSlot = some 0 ∧
      st2.handlers.lookup 0 = some (Handler.server st.prettifyJson) ∧
      roleOf st2 0 = some Role.upstream) ∧
    (∀ sid, id ≠ 0 → st.serverSlot = some sid → ∃ st2,
      step st (Event.opened id) = Except.ok (st2, []) ∧
      st2.clientSlot = some id ∧
      st2.handlers.lookup id = some (Handler.client sid id st.prettifyJson) ∧
      roleOf st2 id = some Role.downstream) := by
  constructor
  · rintro rfl
    exact ⟨_, rfl, rfl, rfl, rfl⟩
  · intro sid hid hsv
    have hd : step st (Event.opened id) = Except.ok
        ({ st with clientSlot := some id,
                   handlers := (id, Handler.client sid id st.prettifyJson) :: st.handlers }, []) := by
      simp only [step]; rw [if_neg hid, hsv]
    refine ⟨_, hd, rfl, ?_, ?_⟩
    · rw [lookup_cons, if_pos rfl]
    · simp only [roleOf]
      rw [lookup_cons, if_pos rfl]
      rfl

/-- A registry state right after the upstream connection opened. -/
def stServerOnly : Sys := ⟨some 0, none, [(0, Handler.server true)], true⟩

theorem c2_witness :
    (∃ st2, step (initSys true) (Event.opened 0) = Except.ok (st2, []) ∧
      st2.serverSlot = some 0 ∧
      st2.handlers.lookup 0 = some (Handler.server true) ∧
      roleOf st2 0 = some Role.upstream) ∧
    (∃ st2, step stServerOnly (Event.opened 5) = Except.ok (st2, []) ∧
      st2.clientSlot = some 5 ∧
      st2.handlers.lookup 5 = some (Handler.client 0 5 true) ∧
      roleOf st2 5 = some Role.downstream) := by
  constructor
  · exact (c2_role_assignment (initSys true) 0).1 rfl
  · exact (c2_role_assignment stServerOnly 5).2 0 (by decide) rfl

/-- Claim C3: the client slot follows the last-wins replacement policy — a
new inbound connection overwrites the stored Downstream peer, and every
subsequent Server-to-Client forward targets the new peer and never the old
one. -/
theorem c3_last_wins_replacement (st : Sys) (oldId newId : Nat) (q : Bool)
    (_hold : st.clientSlot = some oldId) (hnew : newId ≠ 0)
    (hsv : st.serverSlot = some 0)
    (hsh : st.handlers.lookup 0 = some (Handler.server q)) :
    ∃ st2, step st (Event.opened newId) = Except.ok (st2, []) ∧
      st2.clientSlot = some newId ∧
      (∀ m, step st2 (Event.received 0 m) = Except.ok (st2, [⟨newId, m⟩])) ∧
      (oldId ≠ newId → ∀ m s st3 sends2,
        step st2 (Event.received 0 m) = Except.ok (st3, sends2) → s ∈ sends2 →
        s.target = newId ∧ s.target ≠ oldId) := by
  have hd : step st (Event.opened newId) = Except.ok
      ({ st with clientSlot := some newId,
                 handlers := (newId, Handler.client 0 newId st.prettifyJson) :: st.handlers }, []) := by
    simp only [step]; rw [if_neg hnew, hsv]
  have hl : (((newId, Handler.client 0 newId st.prettifyJson) :: st.handlers).lookup 0)
      = some (Handler.server q) := by
    rw [lookup_cons, if_neg (fun hh => hnew hh.symm)]; exact hsh
  have hfwd : ∀ m, step
      ({ st with clientSlot := some newId,
                 handlers := (newId, Handler.client 0 newId st.prettifyJson) :: st.handlers })
      (Event.received 0 m) = Except.ok
      ({ st with clientSlot := some newId,
                 handlers := (newId, Handler.client 0 newId st.prettifyJson) :: st.handlers },
        [⟨newId, m⟩]) := by
    intro m
    simp [step, hl, on_message, log_to_file]
  refine ⟨_, hd, rfl, hfwd, ?_⟩
  intro hne m s st3 sends2 hstep hs
  rw [hfwd m] at hstep
  injection hstep with h2
  injection h2 with ha hb
  subst hb
  simp at hs
  subst hs
  exact ⟨rfl, fun hh => hne hh.symm⟩

theorem c3_witness :
    ∃ st2, step stBoth (Event.opened 9) = Except.ok (st2, []) ∧
      st2.clientSlot = some 9 ∧
      (∀ m, step st2 (Event.received 0 m) = Except.ok (st2, [⟨9, m⟩])) ∧
      (5 ≠ 9 → ∀ m s st3 sends2,
        step st2 (Event.received 0 m) = Except.ok (st3, sends2) → s ∈ sends2 →
        s.target = 9 ∧ s.target ≠ 5) := by
  exact c3_last_wins_replacement stBoth 5 9 false rfl (by decide) rfl rfl

/-- Claim C4: a message arriving on the Server handler while no client has
ever connected hits the `assert!(client.is_some())` and panics — a fatal
error that terminates the message-handling path, never a silent drop or a
silent hang. -/
theorem c4_absent_client_fatal (st : Sys) (id : Nat) (m : Message) (p : Bool)
    (hh : st.handlers.lookup id = some (Handler.server p))
    (hc : st.clientSlot = none) :
    step st (Event.received id m) = Except.error "assertion failed: client.is_some()" := by
  simp [step, hh, hc, on_message]

theorem c4_witness :
    stServerOnly.handlers.lookup 0 = some (Handler.server true) ∧
    stServerOnly.clientSlot = none ∧
    step stServerOnly (Event.received 0 (Message.text "x")) =
      Except.error "assertion failed: client.is_some()" :=
  ⟨rfl, rfl, c4_absent_client_fatal stServerOnly 0 (Message.text "x") true rfl rfl⟩

/-- Claim C5 counterexample: after the trace open-server, open-client 7,
close-client 7 (no replacement), the Downstream slot still reports the closed
connection 7 — a subsequent lookup does NOT report absence, refuting the
claim that `on_close` clears the slot. -/
theorem c5_close_counterexample :
    clientSlotAfter false [Event.opened 0, Event.opened 7, Event.closed 7] = some (some 7) ∧
    clientSlotAfter false [Event.opened 0, Event.opened 7, Event.closed 7] ≠ some none := by
  exact ⟨rfl, by decide⟩

/-- Claim C5 (amended): `Handler::on_close` only emits a debug line — it
performs no slot cleanup at all, so after a Downstream connection closes the
client slot still holds the closed connection's entry (and the whole state is
unchanged). -/
theorem c5_close_no_cleanup (st : Sys) (id : Nat) :
    step st (Event.closed id) = Except.ok (st, []) := rfl

/-- Claim C6: in every reachable state, a forwarded message is never
delivered to a connection of the role it arrived on: the handler of the
arrival connection has some role `r`, and every send of that forward targets
a connection whose handler has the opposite role. -/
theorem c6_no_same_role_delivery (p : Bool) (es : List Event) (st : Sys)
    (outs : List Send) (hrun : runFrom (initSys p) es = Except.ok (st, outs))
    (id : Nat) (m : Message) (st2 : Sys) (sends : List Send)
    (hstep : step st (Event.received id m) = Except.ok (st2, sends)) :
    ∀ s ∈ sends, ∃ r, roleOf st id = some r ∧
      roleOf st s.target = some (oppositeRole r) ∧
      roleOf st s.target ≠ roleOf st id := by
  intro s hs
  have hi : Inv st := inv_runFrom es (initSys p) st outs (inv_initSys p) hrun
  simp only [step] at hstep
  split at hstep
  · injection hstep with h2; injection h2 with ha hb; subst hb; cases hs
  · rename_i hh hl
    split at hstep
    · cases hstep
    · rename_i eff hm
      injection hstep with h2; injection h2 with ha hb; subst hb
      cases hh with
      | server q =>
        cases hc : st.clientSlot with
        | none => rw [hc] at hm; simp [on_message] at hm
        | some c =>
          rw [hc] at hm
          simp only [on_message] at hm
          injection hm with hm2
          subst hm2
          simp at hs
          subst hs
          obtain ⟨pc, hpc⟩ := hi.clientSlotHandler c hc
          refine ⟨Role.upstream, ?_, ?_, ?_⟩
          · simp [roleOf, hl, handlerRole]
          · simp [roleOf, hpc, handlerRole, oppositeRole]
          · simp [roleOf, hl, hpc, handlerRole, oppositeRole]
      | client sid cid q =>
        simp only [on_message] at hm
        injection hm with hm2
        subst hm2
        simp at hs
        subst hs
        obtain ⟨hsid0, _, _, qq, hq⟩ := hi.clientShape id sid cid q hl
        subst hsid0
        refine ⟨Role.downstream, ?_, ?_, ?_⟩
        · simp [roleOf, hl, handlerRole]
        · simp [roleOf, hq, handlerRole, oppositeRole]
        · simp [roleOf, hl, hq, handlerRole, oppositeRole]

theorem c6_witness :
    ∃ r, roleOf stBoth 5 = some r ∧
      roleOf stBoth (Send.mk 0 (Message.text "ping")).target = some (oppositeRole r) ∧
      roleOf stBoth (Send.mk 0 (Message.text "ping")).target ≠ roleOf stBoth 5 := by
  exact c6_no_same_role_delivery false [Event.opened 0, Event.opened 5] stBoth [] rfl
    5 (Message.text "ping") stBoth [⟨0, Message.text "ping"⟩] rfl
    (Send.mk 0 (Message.text "ping")) (by simp)

/-! ## Claim theorems on the transcript formatter and CLI -/

/-- Claim C7: the transcript body computed by `pretty_print` is the raw text
when pretty-printing is disabled; the indented canonical re-serialization
when pretty-printing is enabled and the text parses as JSON; the raw original
text when pretty-printing is enabled but parsing fails; and the textual
`Binary(..)` description of the bytes for a binary payload. -/
theorem c7_transcript_body (raw : String) (bytes : List Nat) (p : Bool) :
    pretty_print (Message.text raw) false = raw ∧
    (fromStr raw = none → pretty_print (Message.text raw) true = raw) ∧
    (∀ v, fromStr raw = some v → pretty_print (Message.text raw) true = toStringPretty v) ∧
    pretty_print (Message.binary bytes) p = "Binary(" ++ bytesRepr bytes ++ ")" := by
  refine ⟨rfl, ?_, ?_, rfl⟩
  · intro h; simp [pretty_print, h]
  · intro v h; simp [pretty_print, h]

theorem c7_witness :
    (fromStr "\x7bbad json" = none ∧
      pretty_print (Message.text "\x7bbad json") true = "\x7bbad json") ∧
    (fromStr "\x7b\"a\":1\x7d" =
        some (Json.obj (JsonMembers.cons "a" (Json.num 1) JsonMembers.nil)) ∧
      pretty_print (Message.text "\x7b\"a\":1\x7d") true =
        toStringPretty (Json.obj (JsonMembers.cons "a" (Json.num 1) JsonMembers.nil))) := by
  refine ⟨⟨rfl, ?_⟩, ⟨rfl, ?_⟩⟩
  · exact (c7_transcript_body "\x7bbad json" [] true).2.1 rfl
  · exact (c7_transcript_body "\x7b\"a\":1\x7d" [] true).2.2.1
      (Json.obj (JsonMembers.cons "a" (Json.num 1) JsonMembers.nil)) rfl

/-- Claim C8: a transcript write failure is only logged: `on_message` still
completes with `Ok`, with exactly the same forward send and the same
transcript record as on a successful write — only the error-log line differs.
(The send also happens before `log_to_file` is even called, so the forward
cannot be blocked or undone by the transcript failure.) -/
theorem c8_log_failure_nonfatal (h : Handler) (clientSlot : Option Nat)
    (m : Message) (e : String) (eff : MsgEffects)
    (hok : on_message h clientSlot m (Except.ok ()) = Except.ok eff) :
    on_message h clientSlot m (Except.error e) =
      Except.ok ⟨eff.sends, eff.records, ["Error: " ++ e]⟩ := by
  cases h with
  | server p =>
    cases hc : clientSlot with
    | none => rw [hc] at hok; simp [on_message] at hok
    | some c =>
      rw [hc] at hok
      simp only [on_message, log_to_file] at hok ⊢
      injection hok with h2
      subst h2
      rfl
  | client sid cid p =>
    simp only [on_message, log_to_file] at hok ⊢
    injection hok with h2
    subst h2
    rfl

theorem c8_witness :
    on_message (Handler.client 0 5 false) none (Message.text "hi") (Except.ok ()) =
      Except.ok ⟨[⟨0, Message.text "hi"⟩], [⟨"[id: 5]", "hi"⟩], []⟩ ∧
    on_message (Handler.client 0 5 false) none (Message.text "hi")
        (Except.error "disk full") =
      Except.ok ⟨[⟨0, Message.text "hi"⟩], [⟨"[id: 5]", "hi"⟩], ["Error: disk full"]⟩ := by
  refine ⟨rfl, ?_⟩
  exact c8_log_failure_nonfatal (Handler.client 0 5 false) none (Message.text "hi")
    "disk full" ⟨[⟨0, Message.text "hi"⟩], [⟨"[id: 5]", "hi"⟩], []⟩ rfl

/-- Claim C9: with two positional arguments, an invalid port prints the
diagnostic naming the value (`Port number .. is invalid`), exits with the
non-zero status `-1` and never reaches `connect`/`listen`; an invalid URL
likewise prints `Websocket URL .. is invalid`, exits `-1`, and never reaches
`connect`/`listen` (the URL is checked before the port). -/
theorem c9_invalid_args_diagnostics (urlValid : String → Bool) (a1 a2 : String)
    (h1 : a1 ≠ "--help") (h1b : a1 ≠ "--pretty-jsons")
    (h2 : a2 ≠ "--help") (h2b : a2 ≠ "--pretty-jsons") :
    (urlValid a1 = false →
      mainModel urlValid [a1, a2] =
        MainOutcome.badUrl ("Websocket URL " ++ a1 ++ " is invalid") ∧
      exitStatus (mainModel urlValid [a1, a2]) = some (-1) ∧
      attemptsConnect (mainModel urlValid [a1, a2]) = false) ∧
    (urlValid a1 = true → parseU16 a2 = none →
      mainModel urlValid [a1, a2] =
        MainOutcome.badPort ("Port number " ++ a2 ++ " is invalid") ∧
      exitStatus (mainModel urlValid [a1, a2]) = some (-1) ∧
      attemptsConnect (mainModel urlValid [a1, a2]) = false) := by
  have hf : filterArgs [a1, a2] = some ([a1, a2], false) := by
    simp [filterArgs, h1, h1b, h2, h2b]
  constructor
  · intro hu
    have hm : mainModel urlValid [a1, a2] =
        MainOutcome.badUrl ("Websocket URL " ++ a1 ++ " is invalid") := by
      simp [mainModel, hf, hu]
    exact ⟨hm, by rw [hm]; rfl, by rw [hm]; rfl⟩
  · intro hu hp
    have hm : mainModel urlValid [a1, a2] =
        MainOutcome.badPort ("Port number " ++ a2 ++ " is invalid") := by
      simp [mainModel, hf, hu, hp]
    exact ⟨hm, by rw [hm]; rfl, by rw [hm]; rfl⟩

theorem c9_witness :
    (mainModel (fun _ => false) ["ws:x", "9001"] =
        MainOutcome.badUrl "Websocket URL ws:x is invalid" ∧
      exitStatus (mainModel (fun _ => false) ["ws:x", "9001"]) = some (-1) ∧
      attemptsConnect (mainModel (fun _ => false) ["ws:x", "9001"]) = false) ∧
    (mainModel (fun _ => true) ["ws:x", "http"] =
        MainOutcome.badPort "Port number http is invalid" ∧
      exitStatus (mainModel (fun _ => true) ["ws:x", "http"]) = some (-1) ∧
      attemptsConnect (mainModel (fun _ => true) ["ws:x", "http"]) = false) := by
  constructor
  · exact (c9_invalid_args_diagnostics (fun _ => false) "ws:x" "9001"
      (by decide) (by decide) (by decide) (by decide)).1 rfl
  · exact (c9_invalid_args_diagnostics (fun _ => true) "ws:x" "http"
      (by decide) (by decide) (by decide) (by decide)).2 rfl rfl

/-! ## Round-trip machinery: characters and whitespace -/

theorem charToNat_inj (a b : Char) (h : a.toNat = b.toNat) : a = b := by
  cases a; cases b
  simp only [Char.toNat] at h
  congr 1
  exact UInt32.toNat.inj h

theorem ws_char_toNat (c : Char) (h : isJsonWs c = true) :
    c.toNat = 32 ∨ c.toNat = 9 ∨ c.toNat = 10 ∨ c.toNat = 13 := by
  simp [isJsonWs] at h
  rcases h with ((h | h) | h) | h <;> subst h <;> decide

theorem digit_not_ws (c : Char) (h : isDigitCh c = true) : isJsonWs c = false := by
  simp only [isDigitCh, Bool.and_eq_true, decide_eq_true_eq] at h
  obtain ⟨ha, hb⟩ := h
  cases hws : isJsonWs c with
  | false => rfl
  | true =>
    exfalso
    rcases ws_char_toNat c hws with h2 | h2 | h2 | h2 <;> omega

theorem startOK_not_ws (c : Char) (h : startOK c = true) : isJsonWs c = false := by
  simp only [startOK, Bool.or_eq_true, beq_iff_eq] at h
  rcases h with ((((((h | h) | h) | h) | h) | h) | h) | h
  · subst h; decide
  · subst h; decide
  · subst h; decide
  · subst h; decide
  · subst h; decide
  · subst h; decide
  · subst h; decide
  · exact digit_not_ws c h

theorem startOK_ne_closers (c : Char) (h : startOK c = true) :
    c ≠ ']' ∧ c ≠ '\x7d' := by
  refine ⟨fun he => ?_, fun he => ?_⟩ <;> subst he <;> exact absurd h (by decide)

theorem skipWs_not (c : Char) (l : List Char) (h : isJsonWs c = false) :
    skipWs (c :: l) = c :: l := by simp [skipWs, h]

theorem skipWs_ws_append (a b : List Char) (h : ∀ c ∈ a, isJsonWs c = true) :
    skipWs (a ++ b) = skipWs b := by
  induction a with
  | nil => rfl
  | cons c a ih =>
    have hc := h c (List.mem_cons_self c a)
    simp only [List.cons_append, skipWs, hc, if_true]
    exact ih (fun d hd => h d (List.mem_cons_of_mem c hd))

theorem indentChars_ws (d : Nat) : ∀ c ∈ indentChars d, isJsonWs c = true := by
  intro c hc
  have : c = ' ' := List.eq_of_mem_replicate (by simpa [indentChars] using hc)
  subst this; decide

theorem expectChars_append (ks cs : List Char) : expectChars ks (ks ++ cs) = some cs := by
  induction ks with
  | nil => rfl
  | cons k ks ih => simp [expectChars, ih]

/-! ## Round-trip machinery: strings -/

theorem charOK_spec (c : Char) (h : charOK c = true) :
    c ≠ '"' ∧ c ≠ '\\' ∧ 32 ≤ c.toNat := by
  simp [charOK] at h
  exact ⟨h.1.1, h.1.2, h.2⟩

theorem charOK_intro (c : Char) (h1 : c ≠ '"') (h2 : c ≠ '\\') (h3 : 32 ≤ c.toNat) :
    charOK c = true := by
  simp [charOK]
  exact ⟨⟨h1, h2⟩, h3⟩

theorem parseStrAux_print (s rest : List Char) (h : ∀ c ∈ s, charOK c = true) :
    parseStrAux (s ++ '"' :: rest) = some (s, rest) := by
  induction s with
  | nil => rfl
  | cons c s ih =>
    obtain ⟨h1, h2, h3⟩ := charOK_spec c (h c (List.mem_cons_self c s))
    have ihh : parseStrAux (s.append ('"' :: rest)) = some (s, rest) :=
      ih (fun d hd => h d (List.mem_cons_of_mem c hd))
    have hno : ¬(c = '\\' ∨ c.toNat < 32) := by push_neg; exact ⟨h2, by omega⟩
    simp only [List.cons_append, parseStrAux, if_neg h1, if_neg hno, ihh]

theorem parseStrAux_ok (cs : List Char) :
    ∀ s r, parseStrAux cs = some (s, r) → ∀ c ∈ s, charOK c = true := by
  induction cs with
  | nil => intro s r h; cases h
  | cons c rest ih =>
    intro s r h
    simp only [parseStrAux] at h
    by_cases h1 : c = '"'
    · rw [if_pos h1] at h
      injection h with h2
      injection h2 with ha hb
      subst ha
      intro d hd; cases hd
    · rw [if_neg h1] at h
      by_cases h2 : c = '\\' ∨ c.toNat < 32
      · rw [if_pos h2] at h; cases h
      · rw [if_neg h2] at h
        cases hp : parseStrAux rest with
        | none => rw [hp] at h; cases h
        | some p =>
          obtain ⟨s', r'⟩ := p
          rw [hp] at h
          injection h with h3
          injection h3 with ha hb
          subst ha
          intro d hd
          rcases List.mem_cons.mp hd with he | hd2
          · subst he
            push_neg at h2
            exact charOK_intro d h1 h2.1 (by omega)
          · exact ih s' r' hp d hd2

/-! ## Round-trip machinery: numbers -/

theorem takeDigits_append (ds rest : List Char) (hds : ∀ c ∈ ds, isDigitCh c = true)
    (hrest : noDigitHead rest = true) : takeDigits (ds ++ rest) = (ds, rest) := by
  induction ds with
  | nil =>
    cases rest with
    | nil => rfl
    | cons c r =>
      have hc : isDigitCh c = false := by simpa [noDigitHead] using hrest
      simp [takeDigits, hc]
  | cons c ds ih =>
    have hc := hds c (List.mem_cons_self c ds)
    simp [takeDigits, hc, ih (fun d hd => hds d (List.mem_cons_of_mem c hd))]

theorem natFromDigits_append (a : List Char) (c : Char) :
    natFromDigits (a ++ [c]) = 10 * natFromDigits a + digitVal c := by
  simp [natFromDigits, List.foldl_append]

theorem digitCh_spec : ∀ k, k < 10 → isDigitCh (digitCh k) = true ∧ digitVal (digitCh k) = k := by
  decide

theorem natToCharsRev_fuel (n : Nat) : ∀ f1 f2, n < f1 → n < f2 →
    natToCharsRev f1 n = natToCharsRev f2 n := by
  induction n using Nat.strong_induction_on with
  | _ n ih =>
    intro f1 f2 h1 h2
    cases f1 with
    | zero => omega
    | succ f1 =>
      cases f2 with
      | zero => omega
      | succ f2 =>
        simp only [natToCharsRev]
        by_cases hn : n < 10
        · simp [hn]
        · simp only [if_neg hn]
          congr 1
          exact ih (n / 10) (by omega) f1 f2 (by omega) (by omega)

theorem natToCharsRev_spec (n : Nat) : ∀ f, n < f →
    natFromDigits (natToCharsRev f n).reverse = n ∧
    (∀ c ∈ natToCharsRev f n, isDigitCh c = true) ∧
    natToCharsRev f n ≠ [] := by
  induction n using Nat.strong_induction_on with
  | _ n ih =>
    intro f hf
    cases f with
    | zero => omega
    | succ f =>
      simp only [natToCharsRev]
      by_cases hn : n < 10
      · rw [if_pos hn]
        refine ⟨?_, ?_, by simp⟩
        · have := (digitCh_spec n hn).2
          simp [natFromDigits]
          omega
        · intro c hc
          have : c = digitCh n := by simpa using hc
          subst this; exact (digitCh_spec n hn).1
      · rw [if_neg hn]
        have hrec := ih (n / 10) (by omega) f (by omega)
        refine ⟨?_, ?_, by simp⟩
        · rw [List.reverse_cons, natFromDigits_append, hrec.1,
            (digitCh_spec (n % 10) (by omega)).2]
          omega
        · intro c hc
          rcases List.mem_cons.mp hc with he | hc2
          · subst he; exact (digitCh_spec (n % 10) (by omega)).1
          · exact hrec.2.1 c hc2

theorem natToChars_spec (n : Nat) :
    natFromDigits (natToChars n) = n ∧
    (∀ c ∈ natToChars n, isDigitCh c = true) ∧ natToChars n ≠ [] := by
  have h := natToCharsRev_spec n (n + 1) (by omega)
  refine ⟨h.1, ?_, ?_⟩
  · intro c hc
    exact h.2.1 c (by simpa [natToChars] using hc)
  · simpa [natToChars] using h.2.2

theorem natToChars_small (n : Nat) (h : n < 10) : natToChars n = [digitCh n] := by
  simp [natToChars, natToCharsRev, h]

theorem natToChars_ten (n : Nat) (h : 10 ≤ n) :
    natToChars n = natToChars (n / 10) ++ [digitCh (n % 10)] := by
  have e1 : natToCharsRev (n + 1) n = digitCh (n % 10) :: natToCharsRev n (n / 10) := by
    simp [natToCharsRev, Nat.not_lt.mpr h]
  rw [natToChars, e1, List.reverse_cons]
  congr 1
  exact congrArg List.reverse (natToCharsRev_fuel (n / 10) n (n / 10 + 1) (by omega) (by omega))

theorem natToChars_head_ne_zero (n : Nat) : ∀ c cs, 10 ≤ n →
    natToChars n = c :: cs → c ≠ '0' := by
  induction n using Nat.strong_induction_on with
  | _ n ih =>
    intro c cs h10 heq
    rw [natToChars_ten n h10] at heq
    by_cases hs : n / 10 < 10
    · rw [natToChars_small _ hs] at heq
      injection heq with h1 h2
      subst h1
      have h1le : 1 ≤ n / 10 := by omega
      have hzz : ∀ k, k < 10 → 1 ≤ k → digitCh k ≠ '0' := by decide
      exact hzz (n / 10) hs h1le
    · obtain ⟨d, ds, hds⟩ : ∃ d ds, natToChars (n / 10) = d :: ds := by
        cases hh : natToChars (n / 10) with
        | nil => exact absurd hh (natToChars_spec (n / 10)).2.2
        | cons d ds => exact ⟨d, ds, rfl⟩
      rw [hds] at heq
      injection heq with h1 h2
      subst h1
      exact ih (n / 10) (by omega) d ds (by omega) hds

theorem natToChars_guard (m : Nat) (d : Char) (ds : List Char)
    (h : natToChars m = d :: ds) : ¬(d = '0' ∧ ds ≠ []) := by
  rintro ⟨rfl, hne⟩
  by_cases hm : m < 10
  · rw [natToChars_small m hm] at h
    injection h with h1 h2
    exact hne h2.symm
  · exact natToChars_head_ne_zero m _ _ (by omega) h rfl

theorem parseIntLit_print (n : Int) (rest : List Char) (hrest : noDigitHead rest = true) :
    parseIntLit (intToChars n ++ rest) = some (n, rest) := by
  by_cases hn : n < 0
  · rw [intToChars, if_pos hn]
    obtain ⟨d, ds, hds⟩ : ∃ d ds, natToChars n.natAbs = d :: ds := by
      cases hh : natToChars n.natAbs with
      | nil => exact absurd hh (natToChars_spec n.natAbs).2.2
      | cons d ds => exact ⟨d, ds, rfl⟩
    have ht : takeDigits (natToChars n.natAbs ++ rest) = (d :: ds, rest) := by
      rw [takeDigits_append _ _ (natToChars_spec n.natAbs).2.1 hrest, hds]
    have hguard := natToChars_guard n.natAbs d ds hds
    have hv : natFromDigits (d :: ds) = n.natAbs := by
      rw [← hds]; exact (natToChars_spec n.natAbs).1
    simp only [List.cons_append]
    simp [parseIntLit, ht, hguard, hv]
    simp [abs_of_neg hn]
  · rw [intToChars, if_neg hn]
    obtain ⟨d, ds, hds⟩ : ∃ d ds, natToChars n.toNat = d :: ds := by
      cases hh : natToChars n.toNat with
      | nil => exact absurd hh (natToChars_spec n.toNat).2.2
      | cons d ds => exact ⟨d, ds, rfl⟩
    have hd : isDigitCh d = true :=
      (natToChars_spec n.toNat).2.1 d (by rw [hds]; exact List.mem_cons_self d ds)
    have hdm : d ≠ '-' := by
      intro he; rw [he] at hd; exact absurd hd (by decide)
    have ht : takeDigits (d :: (ds ++ rest)) = (d :: ds, rest) := by
      have h2 := takeDigits_append (d :: ds) rest
        (by rw [← hds]; exact (natToChars_spec n.toNat).2.1) hrest
      simpa using h2
    have hguard := natToChars_guard n.toNat d ds hds
    have hv : natFromDigits (d :: ds) = n.toNat := by
      rw [← hds]; exact (natToChars_spec n.toNat).1
    have hcast : ((n.toNat : Nat) : Int) = n := by omega
    rw [hds]
    simp only [List.cons_append]
    simp [parseIntLit, hdm, ht, hguard, hv, hcast]

/-! ## Round-trip machinery: the key order and sorted insertion -/

/-- Structural induction for `JsonList` alone (the mutual recursor has
multiple motives, which the `induction` tactic cannot use directly). -/
def listInd {motive : JsonList → Prop} (h0 : motive JsonList.nil)
    (h1 : ∀ x xs, motive xs → motive (JsonList.cons x xs)) : ∀ xs, motive xs
  | JsonList.nil => h0
  | JsonList.cons x xs => h1 x xs (listInd h0 h1 xs)

/-- Structural induction for `JsonMembers` alone. -/
def membersInd {motive : JsonMembers → Prop} (h0 : motive JsonMembers.nil)
    (h1 : ∀ k v tl, motive tl → motive (JsonMembers.cons k v tl)) : ∀ kvs, motive kvs
  | JsonMembers.nil => h0
  | JsonMembers.cons k v tl => h1 k v tl (membersInd h0 h1 tl)

theorem ltChars_irrefl : ∀ a, ltChars a a = false := by
  intro a
  induction a with
  | nil => rfl
  | cons c a ih => simp [ltChars, ih]

theorem ltChars_asymm : ∀ a b, ltChars a b = true → ltChars b a = false := by
  intro a
  induction a with
  | nil =>
    intro b h
    cases b with
    | nil => simp [ltChars] at h
    | cons c bs => rfl
  | cons c a ih =>
    intro b h
    cases b with
    | nil => simp [ltChars] at h
    | cons d bs =>
      simp only [ltChars] at h ⊢
      by_cases h1 : c.toNat < d.toNat
      · rw [if_neg (by omega), if_pos h1]
      · rw [if_neg h1] at h
        by_cases h2 : d.toNat < c.toNat
        · rw [if_pos h2] at h; cases h
        · rw [if_neg h2] at h
          rw [if_neg h2, if_neg h1]
          exact ih bs h

theorem ltChars_trans : ∀ a b c, ltChars a b = true → ltChars b c = true →
    ltChars a c = true := by
  intro a
  induction a with
  | nil =>
    intro b c hab hbc
    cases c with
    | nil =>
      cases b with
      | nil => simp [ltChars] at hab
      | cons y ys => simp [ltChars] at hbc
    | cons z zs => rfl
  | cons x xs ih =>
    intro b c hab hbc
    cases b with
    | nil => simp [ltChars] at hab
    | cons y ys =>
      cases c with
      | nil => simp [ltChars] at hbc
      | cons z zs =>
        simp only [ltChars] at hab hbc ⊢
        by_cases h1 : x.toNat < y.toNat
        · by_cases h2 : y.toNat < z.toNat
          · rw [if_pos (by omega)]
          · rw [if_neg h2] at hbc
            by_cases h3 : z.toNat < y.toNat
            · rw [if_pos h3] at hbc; cases hbc
            · rw [if_pos (by omega)]
        · rw [if_neg h1] at hab
          by_cases h1b : y.toNat < x.toNat
          · rw [if_pos h1b] at hab; cases hab
          · rw [if_neg h1b] at hab
            by_cases h2 : y.toNat < z.toNat
            · rw [if_pos (by omega)]
            · rw [if_neg h2] at hbc
              by_cases h3 : z.toNat < y.toNat
              · rw [if_pos h3] at hbc; cases hbc
              · rw [if_neg h3] at hbc
                rw [if_neg (by omega), if_neg (by omega)]
                exact ih ys zs hab hbc

theorem strData_inj (a b : String) (h : a.data = b.data) : a = b := by
  cases a; cases b
  exact congrArg String.mk (by simpa using h)

theorem ltChars_connex : ∀ a b, a ≠ b → ltChars a b = true ∨ ltChars b a = true := by
  intro a
  induction a with
  | nil =>
    intro b hne
    cases b with
    | nil => exact absurd rfl hne
    | cons c bs => left; rfl
  | cons x xs ih =>
    intro b hne
    cases b with
    | nil => right; rfl
    | cons y ys =>
      by_cases h1 : x.toNat < y.toNat
      · left; simp [ltChars, h1]
      · by_cases h2 : y.toNat < x.toNat
        · right; simp [ltChars, h2]
        · have hxy : x = y := charToNat_inj x y (by omega)
          subst hxy
          have hne2 : xs ≠ ys := fun hh => hne (by rw [hh])
          rcases ih ys hne2 with h | h
          · left; simp [ltChars, h]
          · right; simp [ltChars, h]

theorem ltStr_irrefl (a : String) : ltStr a a = false := ltChars_irrefl a.data

theorem ltStr_asymm (a b : String) (h : ltStr a b = true) : ltStr b a = false :=
  ltChars_asymm a.data b.data h

theorem ltStr_trans (a b c : String) (hab : ltStr a b = true) (hbc : ltStr b c = true) :
    ltStr a c = true :=
  ltChars_trans a.data b.data c.data hab hbc

theorem ltStr_connex (a b : String) (h : a ≠ b) : ltStr a b = true ∨ ltStr b a = true :=
  ltChars_connex a.data b.data (fun hh => h (strData_inj a b hh))

theorem keysOfM_appendM (kvs : JsonMembers) (k : String) (v : Json) :
    keysOfM (appendM kvs k v) = keysOfM kvs ++ [k] := by
  induction kvs using membersInd with
  | h0 => rfl
  | h1 k2 v2 tl ih => simp [appendM, keysOfM, ih]

theorem insertKV_append (k : String) (v : Json) (kvs : JsonMembers)
    (h : ∀ k2 ∈ keysOfM kvs, ltStr k2 k = true) :
    insertKV k v kvs = appendM kvs k v := by
  induction kvs using membersInd with
  | h0 => rfl
  | h1 k2 v2 tl ih =>
    have hk2 := h k2 (List.mem_cons_self k2 (keysOfM tl))
    have hne : k ≠ k2 := by
      intro he; subst he; rw [ltStr_irrefl] at hk2; cases hk2
    have hlt : ltStr k k2 = false := ltStr_asymm k2 k hk2
    have ihh := ih (fun k3 h3 => h k3 (List.mem_cons_of_mem k2 h3))
    simp [insertKV, hne, hlt, ihh, appendM]

theorem mem_keys_insertKV (x k : String) (v : Json) (kvs : JsonMembers)
    (h : x ∈ keysOfM (insertKV k v kvs)) : x = k ∨ x ∈ keysOfM kvs := by
  induction kvs using membersInd with
  | h0 =>
    simp [insertKV, keysOfM] at h
    exact Or.inl h
  | h1 k2 v2 tl ih =>
    simp only [insertKV] at h
    split at h
    · rename_i he
      simp only [keysOfM, List.mem_cons] at h
      rcases h with h | h
      · exact Or.inl h
      · exact Or.inr (List.mem_cons_of_mem k2 h)
    · split at h
      · simp only [keysOfM, List.mem_cons] at h
        rcases h with h | h | h
        · exact Or.inl h
        · exact Or.inr (List.mem_cons.mpr (Or.inl h))
        · exact Or.inr (List.mem_cons_of_mem k2 h)
      · simp only [keysOfM, List.mem_cons] at h
        rcases h with h | h
        · exact Or.inr (List.mem_cons.mpr (Or.inl h))
        · rcases ih h with h2 | h2
          · exact Or.inl h2
          · exact Or.inr (List.mem_cons_of_mem k2 h2)

theorem insertKV_wfM (k : String) (v : Json) (kvs : JsonMembers)
    (hk : strOK k = true) (hv : wfJ v = true) (h : wfM kvs = true) :
    wfM (insertKV k v kvs) = true := by
  induction kvs using membersInd with
  | h0 => simp [insertKV, wfM, hk, hv]
  | h1 k2 v2 tl ih =>
    have h' : (strOK k2 && wfJ v2 && wfM tl) = true := h
    rw [Bool.and_eq_true, Bool.and_eq_true] at h'
    obtain ⟨⟨hk2, hv2⟩, htl⟩ := h'
    simp only [insertKV]
    split
    · simp [wfM, hk, hv, htl]
    · split
      · simp [wfM, hk, hv, hk2, hv2, htl]
      · simp only [wfM, Bool.and_eq_true]
        exact ⟨⟨hk2, hv2⟩, ih htl⟩

theorem insertKV_sorted (k : String) (v : Json) (kvs : JsonMembers)
    (h : sortedKeys (keysOfM kvs) = true) :
    sortedKeys (keysOfM (insertKV k v kvs)) = true := by
  induction kvs using membersInd with
  | h0 => simp [insertKV, keysOfM, sortedKeys]
  | h1 k2 v2 tl ih =>
    simp only [keysOfM, sortedKeys, Bool.and_eq_true] at h
    obtain ⟨hall, htl⟩ := h
    rw [List.all_eq_true] at hall
    simp only [insertKV]
    split
    · rename_i he
      subst he
      simp only [keysOfM, sortedKeys, Bool.and_eq_true]
      refine ⟨?_, htl⟩
      rw [List.all_eq_true]
      exact fun x hx => hall x hx
    · split
      · rename_i hne hlt
        simp only [keysOfM, sortedKeys, Bool.and_eq_true]
        refine ⟨?_, ?_, htl⟩
        · rw [List.all_eq_true]
          intro x hx
          rcases List.mem_cons.mp hx with he2 | hx2
          · subst he2; exact hlt
          · exact ltStr_trans k k2 x hlt (hall x hx2)
        · rw [List.all_eq_true]
          exact fun x hx => hall x hx
      · rename_i hne hlt
        have hk2k : ltStr k2 k = true := by
          rcases ltStr_connex k k2 hne with h | h
          · exact absurd h hlt
          · exact h
        simp only [keysOfM, sortedKeys, Bool.and_eq_true]
        refine ⟨?_, ih htl⟩
        rw [List.all_eq_true]
        intro x hx
        rcases mem_keys_insertKV x k v tl hx with he2 | hx2
        · subst he2; exact hk2k
        · exact hall x hx2

theorem sorted_append_head (xs : List String) (y : String) (ys : List String)
    (h : sortedKeys (xs ++ y :: ys) = true) : ∀ x ∈ xs, ltStr x y = true := by
  induction xs with
  | nil => intro x hx; cases hx
  | cons a xs ih =>
    simp only [List.cons_append, sortedKeys, Bool.and_eq_true] at h
    intro x hx
    rcases List.mem_cons.mp hx with he | hx2
    · subst he
      have h1 := h.1
      rw [List.all_eq_true] at h1
      exact h1 y (by simp)
    · exact ih h.2 x hx2

theorem sorted_append_tail (xs ys : List String)
    (h : sortedKeys (xs ++ ys) = true) : sortedKeys ys = true := by
  induction xs with
  | nil => exact h
  | cons a xs ih =>
    simp only [List.cons_append, sortedKeys, Bool.and_eq_true] at h
    exact ih h.2

theorem concatL_nil (acc : JsonList) : concatL acc JsonList.nil = acc := by
  induction acc using listInd with
  | h0 => rfl
  | h1 x xs ih => simp [concatL, ih]

theorem concatL_appendL (acc : JsonList) (x : Json) (ys : JsonList) :
    concatL (appendL acc x) ys = concatL acc (JsonList.cons x ys) := by
  induction acc using listInd with
  | h0 => rfl
  | h1 a as ih => simp [appendL, concatL, ih]

theorem concatM_nil (acc : JsonMembers) : concatM acc JsonMembers.nil = acc := by
  induction acc using membersInd with
  | h0 => rfl
  | h1 k v tl ih => simp [concatM, ih]

theorem concatM_appendM (acc : JsonMembers) (k : String) (v : Json) (ys : JsonMembers) :
    concatM (appendM acc k v) ys = concatM acc (JsonMembers.cons k v ys) := by
  induction acc using membersInd with
  | h0 => rfl
  | h1 k2 v2 tl ih => simp [appendM, concatM, ih]

/-! ## Every parsed value is well-formed -/

theorem wfL_appendL (v : Json) (hv : wfJ v = true) :
    ∀ acc, wfL acc = true → wfL (appendL acc v) = true := by
  intro acc
  induction acc using listInd with
  | h0 =>
    intro _
    have hgoal : (wfJ v && wfL JsonList.nil) = true := by
      rw [Bool.and_eq_true]; exact ⟨hv, rfl⟩
    exact hgoal
  | h1 x xs ih =>
    intro ha
    have h' : (wfJ x && wfL xs) = true := ha
    rw [Bool.and_eq_true] at h'
    have h2 : wfL (appendL xs v) = true := ih h'.2
    have hgoal : (wfJ x && wfL (appendL xs v)) = true := by
      rw [Bool.and_eq_true]; exact ⟨h'.1, h2⟩
    exact hgoal

theorem strOK_mk (s : List Char) (h : ∀ c ∈ s, charOK c = true) :
    strOK (String.mk s) = true := by
  simp only [strOK, List.all_eq_true]
  exact h

theorem parse_wf : ∀ f : Nat,
    (∀ cs v r, parseVal f cs = some (v, r) → wfJ v = true) ∧
    (∀ cs acc v r, parseElems f cs acc = some (v, r) → wfL acc = true → wfJ v = true) ∧
    (∀ cs acc v r, parseMembers f cs acc = some (v, r) →
      wfM acc = true → sortedKeys (keysOfM acc) = true → wfJ v = true) := by
  intro f
  induction f with
  | zero =>
    refine ⟨?_, ?_, ?_⟩ <;> intro cs <;> intros <;> simp_all [parseVal, parseElems, parseMembers]
  | succ f ih =>
    obtain ⟨ihV, ihE, ihM⟩ := ih
    refine ⟨?_, ?_, ?_⟩
    · intro cs v r h
      simp only [parseVal] at h
      split at h
      · cases h
      · rename_i c rest hsk
        split at h
        · split at h
          · injection h with h2; injection h2 with ha hb; subst ha; rfl
          · cases h
        · split at h
          · split at h
            · injection h with h2; injection h2 with ha hb; subst ha; rfl
            · cases h
          · split at h
            · split at h
              · injection h with h2; injection h2 with ha hb; subst ha; rfl
              · cases h
            · split at h
              · split at h
                · rename_i s r2 heqS
                  injection h with h2; injection h2 with ha hb; subst ha
                  exact strOK_mk s (parseStrAux_ok _ s r2 heqS)
                · cases h
              · split at h
                · split at h
                  · injection h with h2; injection h2 with ha hb; subst ha; rfl
                  · exact ihE _ _ v r h rfl
                · split at h
                  · split at h
                    · injection h with h2; injection h2 with ha hb; subst ha; rfl
                    · exact ihM _ _ v r h rfl rfl
                  · split at h
                    · rename_i n r2 heqN
                      injection h with h2; injection h2 with ha hb; subst ha; rfl
                    · cases h
    · intro cs acc v r h hacc
      simp only [parseElems] at h
      split at h
      · cases h
      · rename_i v2 r2 hpv
        split at h
        · rename_i r3 heq
          exact ihE _ _ v r h (wfL_appendL v2 (ihV _ _ _ hpv) acc hacc)
        · rename_i r3 heq
          injection h with h2
          injection h2 with ha hb
          subst ha
          exact wfL_appendL v2 (ihV _ _ _ hpv) acc hacc
        · cases h
    · intro cs acc v r h hacc hsort
      simp only [parseMembers] at h
      split at h
      · rename_i cs1 hsk
        split at h
        · cases h
        · rename_i kc r2 hpk
          have hkOK : strOK (String.mk kc) = true := strOK_mk kc (parseStrAux_ok _ kc r2 hpk)
          split at h
          · rename_i r3 heq3
            split at h
            · cases h
            · rename_i v2 r4 hpv
              have hv2 : wfJ v2 = true := ihV _ v2 r4 hpv
              split at h
              · rename_i r5 heq5
                exact ihM _ _ v r h (insertKV_wfM _ v2 acc hkOK hv2 hacc)
                  (insertKV_sorted _ v2 acc hsort)
              · rename_i r5 heq5
                injection h with h2
                injection h2 with ha hb
                subst ha
                have hw : wfM (insertKV (String.mk kc) v2 acc) = true :=
                  insertKV_wfM _ v2 acc hkOK hv2 hacc
                have hsrt : sortedKeys (keysOfM (insertKV (String.mk kc) v2 acc)) = true :=
                  insertKV_sorted _ v2 acc hsort
                have hgoal : (wfM (insertKV (String.mk kc) v2 acc) &&
                    sortedKeys (keysOfM (insertKV (String.mk kc) v2 acc))) = true := by
                  rw [Bool.and_eq_true]; exact ⟨hw, hsrt⟩
                exact hgoal
              · cases h
          · cases h
      · cases h

/-! ## Whitespace prefixes do not change parses -/

theorem skipWs_idem (cs : List Char) : skipWs (skipWs cs) = skipWs cs := by
  induction cs with
  | nil => rfl
  | cons c rest ih =>
    by_cases hc : isJsonWs c = true
    · simp [skipWs, hc, ih]
    · have hc' : isJsonWs c = false := by
        cases hcc : isJsonWs c
        · rfl
        · exact absurd hcc hc
      simp [skipWs, hc']

theorem parseVal_ws (f : Nat) (hf : 0 < f) (ws cs : List Char)
    (hws : ∀ c ∈ ws, isJsonWs c = true) :
    parseVal f (ws ++ cs) = parseVal f cs := by
  obtain ⟨f', rfl⟩ : ∃ f', f = f' + 1 := ⟨f - 1, by omega⟩
  simp only [parseVal, skipWs_ws_append ws cs hws]

theorem parseVal_skipWs (f : Nat) (hf : 0 < f) (cs : List Char) :
    parseVal f (skipWs cs) = parseVal f cs := by
  obtain ⟨f', rfl⟩ : ∃ f', f = f' + 1 := ⟨f - 1, by omega⟩
  simp only [parseVal, skipWs_idem]

theorem parseElems_ws (f : Nat) (hf : 0 < f) (ws cs : List Char) (acc : JsonList)
    (hws : ∀ c ∈ ws, isJsonWs c = true) :
    parseElems f (ws ++ cs) acc = parseElems f cs acc := by
  obtain ⟨f', rfl⟩ : ∃ f', f = f' + 1 := ⟨f - 1, by omega⟩
  cases f' with
  | zero => simp [parseElems, parseVal]
  | succ f2 => simp only [parseElems, parseVal_ws (f2 + 1) (by omega) ws cs hws]

theorem parseElems_skipWs (f : Nat) (hf : 0 < f) (cs : List Char) (acc : JsonList) :
    parseElems f (skipWs cs) acc = parseElems f cs acc := by
  obtain ⟨f', rfl⟩ : ∃ f', f = f' + 1 := ⟨f - 1, by omega⟩
  cases f' with
  | zero => simp [parseElems, parseVal]
  | succ f2 => simp only [parseElems, parseVal_skipWs (f2 + 1) (by omega) cs]

theorem parseMembers_ws (f : Nat) (hf : 0 < f) (ws cs : List Char) (acc : JsonMembers)
    (hws : ∀ c ∈ ws, isJsonWs c = true) :
    parseMembers f (ws ++ cs) acc = parseMembers f cs acc := by
  obtain ⟨f', rfl⟩ : ∃ f', f = f' + 1 := ⟨f - 1, by omega⟩
  simp only [parseMembers, skipWs_ws_append ws cs hws]

theorem parseMembers_skipWs (f : Nat) (hf : 0 < f) (cs : List Char) (acc : JsonMembers) :
    parseMembers f (skipWs cs) acc = parseMembers f cs acc := by
  obtain ⟨f', rfl⟩ : ∃ f', f = f' + 1 := ⟨f - 1, by omega⟩
  simp only [parseMembers, skipWs_idem]

/-! ## Heads of printed values -/

theorem digit_not_kw (c : Char) (h : isDigitCh c = true) :
    c ≠ 'n' ∧ c ≠ 't' ∧ c ≠ 'f' ∧ c ≠ '"' ∧ c ≠ '[' ∧ c ≠ '\x7b' := by
  refine ⟨?_, ?_, ?_, ?_, ?_, ?_⟩ <;> intro he <;> subst he <;> exact absurd h (by decide)

theorem natToChars_cons (n : Nat) : ∃ c cs, natToChars n = c :: cs ∧ isDigitCh c = true := by
  cases hh : natToChars n with
  | nil => exact absurd hh (natToChars_spec n).2.2
  | cons c cs =>
    refine ⟨c, cs, rfl, ?_⟩
    exact (natToChars_spec n).2.1 c (by rw [hh]; exact List.mem_cons_self c cs)

theorem printJ_head (d : Nat) (v : Json) :
    ∃ c t, printJ d v = c :: t ∧ startOK c = true := by
  cases v with
  | null => exact ⟨'n', _, rfl, by decide⟩
  | bool b =>
    cases b
    · exact ⟨'f', _, rfl, by decide⟩
    · exact ⟨'t', _, rfl, by decide⟩
  | num n =>
    by_cases hn : n < 0
    · refine ⟨'-', natToChars n.natAbs, ?_, by decide⟩
      simp [printJ, intToChars, hn]
    · obtain ⟨c, cs, hc, hdig⟩ := natToChars_cons n.toNat
      refine ⟨c, cs, ?_, ?_⟩
      · simp [printJ, intToChars, hn, hc]
      · simp [startOK, hdig]
  | str s => exact ⟨'"', _, rfl, by decide⟩
  | arr xs =>
    cases xs with
    | nil => exact ⟨'[', _, rfl, by decide⟩
    | cons x xs => exact ⟨'[', _, rfl, by decide⟩
  | obj kvs =>
    cases kvs with
    | nil => exact ⟨'\x7b', _, rfl, by decide⟩
    | cons k v2 tl => exact ⟨'\x7b', _, rfl, by decide⟩

theorem needJ_pos (v : Json) : 1 ≤ needJ v := by
  cases v <;> simp [needJ] <;> omega

theorem needL_pos (x : Json) (xs : JsonList) : 1 ≤ needL (JsonList.cons x xs) := by
  simp only [needL]; omega

theorem mk_data (s : String) : String.mk s.data = s := by cases s; rfl

theorem strOK_chars (s : String) (h : strOK s = true) : ∀ c ∈ s.data, charOK c = true := by
  rw [strOK, List.all_eq_true] at h
  exact h

theorem appendL_concatL (acc : JsonList) (x : Json) :
    appendL acc x = concatL acc (JsonList.cons x JsonList.nil) := by
  rw [← concatL_nil (appendL acc x), concatL_appendL]

theorem appendM_concatM (acc : JsonMembers) (k : String) (v : Json) :
    appendM acc k v = concatM acc (JsonMembers.cons k v JsonMembers.nil) := by
  rw [← concatM_nil (appendM acc k v), concatM_appendM]

theorem parseVal_num_dispatch (f : Nat) (c : Char) (cs2 : List Char)
    (h1 : c ≠ 'n') (h2 : c ≠ 't') (h3 : c ≠ 'f') (h4 : c ≠ '"') (h5 : c ≠ '[')
    (h6 : c ≠ '\x7b') (hws : isJsonWs c = false) :
    parseVal (f + 1) (c :: cs2) =
      (match parseIntLit (c :: cs2) with
       | some (n, r) => some (Json.num n, r)
       | none => none) := by
  simp only [parseVal, skipWs_not c cs2 hws]
  rw [if_neg h1, if_neg h2, if_neg h3, if_neg h4, if_neg h5, if_neg h6]

theorem skipWs_printItems (d : Nat) (x : Json) (xs : JsonList) (cl : List Char) :
    ∃ c t, skipWs (printItems d (JsonList.cons x xs) ++ cl) = c :: t ∧ startOK c = true := by
  obtain ⟨c, t, hct, hso⟩ := printJ_head d x
  have hnws := startOK_not_ws c hso
  cases xs with
  | nil =>
    refine ⟨c, t ++ cl, ?_, hso⟩
    show skipWs ((indentChars d ++ printJ d x) ++ cl) = c :: (t ++ cl)
    rw [List.append_assoc, skipWs_ws_append _ _ (indentChars_ws d), hct, List.cons_append,
      skipWs_not _ _ hnws]
  | cons y ys =>
    refine ⟨c, t ++ (',' :: '\n' :: printItems d (JsonList.cons y ys)) ++ cl, ?_, hso⟩
    show skipWs ((indentChars d ++ (printJ d x ++ ',' :: '\n' :: printItems d (JsonList.cons y ys))) ++ cl)
      = c :: (t ++ (',' :: '\n' :: printItems d (JsonList.cons y ys)) ++ cl)
    rw [List.append_assoc, skipWs_ws_append _ _ (indentChars_ws d), hct]
    rw [show ((c :: t ++ ',' :: '\n' :: printItems d (JsonList.cons y ys)) ++ cl)
        = c :: (t ++ (',' :: '\n' :: printItems d (JsonList.cons y ys)) ++ cl) by simp]
    rw [skipWs_not _ _ hnws]

theorem skipWs_printMembers (d : Nat) (k : String) (v : Json) (kvs : JsonMembers)
    (cl : List Char) :
    ∃ t, skipWs (printMembers d (JsonMembers.cons k v kvs) ++ cl) = '"' :: t := by
  cases kvs with
  | nil =>
    refine ⟨(k.data ++ '"' :: ':' :: ' ' :: printJ d v) ++ cl, ?_⟩
    show skipWs ((indentChars d ++ ('"' :: (k.data ++ '"' :: ':' :: ' ' :: printJ d v))) ++ cl)
      = '"' :: ((k.data ++ '"' :: ':' :: ' ' :: printJ d v) ++ cl)
    rw [List.append_assoc, skipWs_ws_append _ _ (indentChars_ws d), List.cons_append,
      skipWs_not _ _ (by decide)]
  | cons k2 v2 tl =>
    refine ⟨(k.data ++ '"' :: ':' :: ' ' ::
      (printJ d v ++ ',' :: '\n' :: printMembers d (JsonMembers.cons k2 v2 tl))) ++ cl, ?_⟩
    show skipWs ((indentChars d ++ ('"' :: (k.data ++ '"' :: ':' :: ' ' ::
        (printJ d v ++ ',' :: '\n' :: printMembers d (JsonMembers.cons k2 v2 tl))))) ++ cl)
      = '"' :: ((k.data ++ '"' :: ':' :: ' ' ::
        (printJ d v ++ ',' :: '\n' :: printMembers d (JsonMembers.cons k2 v2 tl))) ++ cl)
    rw [List.append_assoc, skipWs_ws_append _ _ (indentChars_ws d), List.cons_append,
      skipWs_not _ _ (by decide)]

/-! ## The printed form is at least as long as the fuel it needs -/

mutual
def printLenJ : ∀ (v : Json) (d : Nat), needJ v ≤ (printJ d v).length
  | .null, d => by simp [needJ, printJ]
  | .bool true, d => by simp [needJ, printJ]
  | .bool false, d => by simp [needJ, printJ]
  | .num n, d => by
    have h : intToChars n ≠ [] := by
      by_cases hn : n < 0
      · simp [intToChars, hn]
      · simp [intToChars, hn]
        exact (natToChars_spec n.toNat).2.2
    have h2 := List.length_pos.mpr h
    simp only [needJ, printJ]
    omega
  | .str s, d => by
    simp [needJ, printJ]
  | .arr .nil, d => by simp [needJ, needL, printJ]
  | .arr (.cons x xs), d => by
    have h := printLenL x xs (d + 1) (by omega)
    simp only [needJ, printJ, List.length_append, List.length_cons, indentChars,
      List.length_replicate]
    omega
  | .obj .nil, d => by simp [needJ, needM, printJ]
  | .obj (.cons k v kvs), d => by
    have h := printLenM k v kvs (d + 1) (by omega)
    simp only [needJ, printJ, List.length_append, List.length_cons, indentChars,
      List.length_replicate]
    omega
termination_by v _ => sizeOf v
def printLenL : ∀ (x : Json) (xs : JsonList) (d : Nat), 1 ≤ d →
    needL (JsonList.cons x xs) ≤ (printItems d (JsonList.cons x xs)).length
  | x, .nil, d, hd => by
    have h := printLenJ x d
    simp only [needL, printItems, List.length_append, indentChars, List.length_replicate]
    omega
  | x, .cons y ys, d, hd => by
    have h1 := printLenJ x d
    have h2 := printLenL y ys d hd
    simp only [needL, printItems, List.length_append, List.length_cons, indentChars,
      List.length_replicate] at h2 ⊢
    omega
termination_by x xs _ _ => 1 + sizeOf x + sizeOf xs
def printLenM : ∀ (k : String) (v : Json) (kvs : JsonMembers) (d : Nat), 1 ≤ d →
    needM (JsonMembers.cons k v kvs) ≤ (printMembers d (JsonMembers.cons k v kvs)).length
  | k, v, .nil, d, hd => by
    have h := printLenJ v d
    simp only [needM, printMembers, List.length_append, List.length_cons, indentChars,
      List.length_replicate]
    omega
  | k, v, .cons k2 v2 tl, d, hd => by
    have h1 := printLenJ v d
    have h2 := printLenM k2 v2 tl d hd
    simp only [needM, printMembers, List.length_append, List.length_cons, indentChars,
      List.length_replicate] at h2 ⊢
    omega
termination_by _ v kvs _ _ => 1 + sizeOf v + sizeOf kvs
end

/-! ## Dispatch equations of `parseVal` on each leading character -/

theorem wsNil : ∀ c ∈ ([] : List Char), isJsonWs c = true := by
  intro c hc; cases hc

theorem wsCons (c0 : Char) (h0 : isJsonWs c0 = true) (ws2 : List Char)
    (h : ∀ c ∈ ws2, isJsonWs c = true) : ∀ c ∈ c0 :: ws2, isJsonWs c = true := by
  intro c hc
  rcases List.mem_cons.mp hc with rfl | hc2
  · exact h0
  · exact h c hc2

theorem parseVal_str_dispatch (f : Nat) (cs2 : List Char) :
    parseVal (f + 1) ('"' :: cs2) =
      (match parseStrAux cs2 with
       | some (s, r) => some (Json.str (String.mk s), r)
       | none => none) := by
  simp only [parseVal, skipWs_not '"' cs2 (by decide)]
  rw [if_neg (by decide), if_neg (by decide), if_neg (by decide)]
  simp

theorem parseVal_arr_dispatch (f : Nat) (cs2 : List Char) :
    parseVal (f + 1) ('[' :: cs2) =
      (match skipWs cs2 with
       | ']' :: r => some (Json.arr JsonList.nil, r)
       | r => parseElems f r JsonList.nil) := by
  simp only [parseVal, skipWs_not '[' cs2 (by decide)]
  rw [if_neg (by decide), if_neg (by decide), if_neg (by decide), if_neg (by decide)]
  simp

theorem parseVal_obj_dispatch (f : Nat) (cs2 : List Char) :
    parseVal (f + 1) ('\x7b' :: cs2) =
      (match skipWs cs2 with
       | '\x7d' :: r => some (Json.obj JsonMembers.nil, r)
       | r => parseMembers f r JsonMembers.nil) := by
  simp only [parseVal, skipWs_not '\x7b' cs2 (by decide)]
  rw [if_neg (by decide), if_neg (by decide), if_neg (by decide), if_neg (by decide),
    if_neg (by decide)]
  simp

/-! ## The parser inverts the pretty serializer on well-formed values -/

mutual
def printParseJ : ∀ (v : Json) (d : Nat) (rest : List Char) (f : Nat),
    wfJ v = true → needJ v ≤ f → noDigitHead rest = true →
    parseVal f (printJ d v ++ rest) = some (v, rest)
  | .null, _, rest, f, _, hf, _ => by
    have hf1 : 1 ≤ f := le_trans (needJ_pos Json.null) hf
    obtain ⟨f', rfl⟩ : ∃ f2, f = f2 + 1 := ⟨f - 1, by omega⟩
    rfl
  | .bool true, _, rest, f, _, hf, _ => by
    have hf1 : 1 ≤ f := le_trans (needJ_pos (Json.bool true)) hf
    obtain ⟨f', rfl⟩ : ∃ f2, f = f2 + 1 := ⟨f - 1, by omega⟩
    rfl
  | .bool false, _, rest, f, _, hf, _ => by
    have hf1 : 1 ≤ f := le_trans (needJ_pos (Json.bool false)) hf
    obtain ⟨f', rfl⟩ : ∃ f2, f = f2 + 1 := ⟨f - 1, by omega⟩
    rfl
  | .num n, d, rest, f, _, hf, hrest => by
    have hf1 : 1 ≤ f := le_trans (needJ_pos (Json.num n)) hf
    obtain ⟨f', rfl⟩ : ∃ f2, f = f2 + 1 := ⟨f - 1, by omega⟩
    by_cases hn : n < 0
    · have hsh : printJ d (Json.num n) ++ rest = '-' :: (natToChars n.natAbs ++ rest) := by
        simp [printJ, intToChars, hn]
      rw [hsh, parseVal_num_dispatch f' '-' _ (by decide) (by decide) (by decide) (by decide)
        (by decide) (by decide) (by decide)]
      simp only [show ('-' :: (natToChars n.natAbs ++ rest)) = intToChars n ++ rest by
        simp [intToChars, hn], parseIntLit_print n rest hrest]
    · obtain ⟨c, cs, hc, hdig⟩ := natToChars_cons n.toNat
      obtain ⟨k1, k2, k3, k4, k5, k6⟩ := digit_not_kw c hdig
      have hsh : printJ d (Json.num n) ++ rest = c :: (cs ++ rest) := by
        simp [printJ, intToChars, hn, hc]
      rw [hsh, parseVal_num_dispatch f' c _ k1 k2 k3 k4 k5 k6 (digit_not_ws c hdig)]
      simp only [show (c :: (cs ++ rest)) = intToChars n ++ rest by
        simp [intToChars, hn, hc], parseIntLit_print n rest hrest]
  | .str s, d, rest, f, hwf, hf, _ => by
    have hf1 : 1 ≤ f := le_trans (needJ_pos (Json.str s)) hf
    obtain ⟨f', rfl⟩ : ∃ f2, f = f2 + 1 := ⟨f - 1, by omega⟩
    have hsh : printJ d (Json.str s) ++ rest = '"' :: (s.data ++ ('"' :: rest)) := by
      simp [printJ]
    rw [hsh, parseVal_str_dispatch f' _]
    simp only [parseStrAux_print s.data rest (strOK_chars s hwf), mk_data]
  | .arr .nil, _, rest, f, _, hf, _ => by
    have hf1 : 1 ≤ f := le_trans (needJ_pos (Json.arr JsonList.nil)) hf
    obtain ⟨f', rfl⟩ : ∃ f2, f = f2 + 1 := ⟨f - 1, by omega⟩
    rfl
  | .arr (.cons x xs), d, rest, f, hwf, hf, _ => by
    have hf1 : 1 ≤ f := le_trans (needJ_pos (Json.arr (JsonList.cons x xs))) hf
    obtain ⟨f', rfl⟩ : ∃ f2, f = f2 + 1 := ⟨f - 1, by omega⟩
    have hfL : needL (JsonList.cons x xs) + 1 ≤ f' := by
      have : needJ (Json.arr (JsonList.cons x xs)) = 2 + needL (JsonList.cons x xs) := rfl
      omega
    have hL := printParseL x xs (d + 1) (indentChars d) rest f' JsonList.nil hwf hfL
      (indentChars_ws d)
    have hsh : printJ d (Json.arr (JsonList.cons x xs)) ++ rest =
        '[' :: ('\n' :: (printItems (d + 1) (JsonList.cons x xs) ++
          ('\n' :: (indentChars d ++ (']' :: rest))))) := by
      simp [printJ, List.append_assoc]
    rw [hsh, parseVal_arr_dispatch f' _]
    obtain ⟨c, t, hct, hso⟩ := skipWs_printItems (d + 1) x xs
      ('\n' :: (indentChars d ++ (']' :: rest)))
    have hsw : skipWs ('\n' :: (printItems (d + 1) (JsonList.cons x xs) ++
        ('\n' :: (indentChars d ++ (']' :: rest))))) = c :: t := by
      rw [show ('\n' :: (printItems (d + 1) (JsonList.cons x xs) ++
          ('\n' :: (indentChars d ++ (']' :: rest)))))
          = ['\n'] ++ (printItems (d + 1) (JsonList.cons x xs) ++
          ('\n' :: (indentChars d ++ (']' :: rest)))) from rfl]
      rw [skipWs_ws_append _ _ (wsCons '\n' (by decide) [] wsNil)]
      exact hct
    rw [hsw]
    split
    · rename_i r heq
      exfalso
      injection heq with h1 h2
      exact (startOK_ne_closers c hso).1 h1
    · rw [← hct, parseElems_skipWs f' (by omega) _ _]
      exact hL
  | .obj .nil, _, rest, f, _, hf, _ => by
    have hf1 : 1 ≤ f := le_trans (needJ_pos (Json.obj JsonMembers.nil)) hf
    obtain ⟨f', rfl⟩ : ∃ f2, f = f2 + 1 := ⟨f - 1, by omega⟩
    rfl
  | .obj (.cons k v kvs), d, rest, f, hwf, hf, _ => by
    have hf1 : 1 ≤ f := le_trans (needJ_pos (Json.obj (JsonMembers.cons k v kvs))) hf
    obtain ⟨f', rfl⟩ : ∃ f2, f = f2 + 1 := ⟨f - 1, by omega⟩
    have hwf' : (wfM (JsonMembers.cons k v kvs) &&
        sortedKeys (keysOfM (JsonMembers.cons k v kvs))) = true := hwf
    rw [Bool.and_eq_true] at hwf'
    have hfM : needM (JsonMembers.cons k v kvs) + 1 ≤ f' := by
      have : needJ (Json.obj (JsonMembers.cons k v kvs))
          = 2 + needM (JsonMembers.cons k v kvs) := rfl
      omega
    have hsorted : sortedKeys (keysOfM JsonMembers.nil ++
        keysOfM (JsonMembers.cons k v kvs)) = true := by
      simpa [keysOfM] using hwf'.2
    have hM := printParseM k v kvs (d + 1) (indentChars d) rest f' JsonMembers.nil
      hwf'.1 hfM (indentChars_ws d) hsorted
    have hsh : printJ d (Json.obj (JsonMembers.cons k v kvs)) ++ rest =
        '\x7b' :: ('\n' :: (printMembers (d + 1) (JsonMembers.cons k v kvs) ++
          ('\n' :: (indentChars d ++ ('\x7d' :: rest))))) := by
      simp [printJ, List.append_assoc]
    rw [hsh, parseVal_obj_dispatch f' _]
    obtain ⟨t, hsw0⟩ := skipWs_printMembers (d + 1) k v kvs
      ('\n' :: (indentChars d ++ ('\x7d' :: rest)))
    have hsw : skipWs ('\n' :: (printMembers (d + 1) (JsonMembers.cons k v kvs) ++
        ('\n' :: (indentChars d ++ ('\x7d' :: rest))))) = '"' :: t := by
      rw [show ('\n' :: (printMembers (d + 1) (JsonMembers.cons k v kvs) ++
          ('\n' :: (indentChars d ++ ('\x7d' :: rest)))))
          = ['\n'] ++ (printMembers (d + 1) (JsonMembers.cons k v kvs) ++
          ('\n' :: (indentChars d ++ ('\x7d' :: rest)))) from rfl]
      rw [skipWs_ws_append _ _ (wsCons '\n' (by decide) [] wsNil)]
      exact hsw0
    rw [hsw]
    split
    · rename_i r heq
      exfalso
      injection heq with h1 h2
      exact absurd h1 (by decide)
    · rw [← hsw0, parseMembers_skipWs f' (by omega) _ _]
      exact hM
termination_by v _ _ _ => sizeOf v

def printParseL : ∀ (x : Json) (xs : JsonList) (d : Nat) (ws2 rest : List Char) (f : Nat)
    (acc : JsonList),
    wfL (JsonList.cons x xs) = true → needL (JsonList.cons x xs) + 1 ≤ f →
    (∀ c ∈ ws2, isJsonWs c = true) →
    parseElems f (printItems d (JsonList.cons x xs) ++ ('\n' :: (ws2 ++ (']' :: rest)))) acc =
      some (Json.arr (concatL acc (JsonList.cons x xs)), rest)
  | x, .nil, d, ws2, rest, f, acc, hwf, hfL, hws2 => by
    obtain ⟨f', rfl⟩ : ∃ f2, f = f2 + 1 := ⟨f - 1, by omega⟩
    have h' : (wfJ x && wfL JsonList.nil) = true := hwf
    rw [Bool.and_eq_true] at h'
    have hneed : needL (JsonList.cons x JsonList.nil) = 1 + needJ x + needL JsonList.nil := rfl
    have hnp := needJ_pos x
    have hfx : needJ x ≤ f' := by omega
    have hin : printItems d (JsonList.cons x JsonList.nil) ++ ('\n' :: (ws2 ++ (']' :: rest))) =
        indentChars d ++ (printJ d x ++ ('\n' :: (ws2 ++ (']' :: rest)))) := by
      simp [printItems, List.append_assoc]
    rw [hin]
    simp only [parseElems]
    rw [parseVal_ws f' (by omega) _ _ (indentChars_ws d)]
    simp only [printParseJ x d ('\n' :: (ws2 ++ (']' :: rest))) f' h'.1 hfx rfl]
    have hskip : skipWs ('\n' :: (ws2 ++ (']' :: rest))) = ']' :: rest := by
      rw [show ('\n' :: (ws2 ++ (']' :: rest))) = ('\n' :: ws2) ++ (']' :: rest) from rfl]
      rw [skipWs_ws_append _ _ (wsCons '\n' (by decide) ws2 hws2)]
      exact skipWs_not _ _ (by decide)
    simp only [hskip]
    rw [appendL_concatL]
  | x, .cons y ys, d, ws2, rest, f, acc, hwf, hfL, hws2 => by
    obtain ⟨f', rfl⟩ : ∃ f2, f = f2 + 1 := ⟨f - 1, by omega⟩
    have h' : (wfJ x && wfL (JsonList.cons y ys)) = true := hwf
    rw [Bool.and_eq_true] at h'
    have hneed : needL (JsonList.cons x (JsonList.cons y ys))
        = 1 + needJ x + needL (JsonList.cons y ys) := rfl
    have hnp := needJ_pos x
    have hfx : needJ x ≤ f' := by omega
    have hin : printItems d (JsonList.cons x (JsonList.cons y ys)) ++
        ('\n' :: (ws2 ++ (']' :: rest))) =
        indentChars d ++ (printJ d x ++ (',' :: ('\n' :: (printItems d (JsonList.cons y ys) ++
          ('\n' :: (ws2 ++ (']' :: rest))))))) := by
      simp [printItems, List.append_assoc]
    rw [hin]
    simp only [parseElems]
    rw [parseVal_ws f' (by omega) _ _ (indentChars_ws d)]
    simp only [printParseJ x d
      (',' :: ('\n' :: (printItems d (JsonList.cons y ys) ++ ('\n' :: (ws2 ++ (']' :: rest))))))
      f' h'.1 hfx rfl]
    simp only [skipWs_not ','
      ('\n' :: (printItems d (JsonList.cons y ys) ++ ('\n' :: (ws2 ++ (']' :: rest)))))
      (by decide)]
    rw [show ('\n' :: (printItems d (JsonList.cons y ys) ++ ('\n' :: (ws2 ++ (']' :: rest)))))
        = ['\n'] ++ (printItems d (JsonList.cons y ys) ++ ('\n' :: (ws2 ++ (']' :: rest))))
        from rfl]
    rw [parseElems_ws f' (by omega) _ _ _ (wsCons '\n' (by decide) [] wsNil)]
    rw [printParseL y ys d ws2 rest f' (appendL acc x) h'.2
      (by have := needJ_pos x; omega) hws2]
    rw [concatL_appendL]
termination_by x xs _ _ _ _ _ => 1 + sizeOf x + sizeOf xs

def printParseM : ∀ (k : String) (v : Json) (kvs : JsonMembers) (d : Nat)
    (ws2 rest : List Char) (f : Nat) (acc : JsonMembers),
    wfM (JsonMembers.cons k v kvs) = true → needM (JsonMembers.cons k v kvs) + 1 ≤ f →
    (∀ c ∈ ws2, isJsonWs c = true) →
    sortedKeys (keysOfM acc ++ keysOfM (JsonMembers.cons k v kvs)) = true →
    parseMembers f (printMembers d (JsonMembers.cons k v kvs) ++
        ('\n' :: (ws2 ++ ('\x7d' :: rest)))) acc =
      some (Json.obj (concatM acc (JsonMembers.cons k v kvs)), rest)
  | k, v, .nil, d, ws2, rest, f, acc, hwf, hfM, hws2, hsort => by
    obtain ⟨f', rfl⟩ : ∃ f2, f = f2 + 1 := ⟨f - 1, by omega⟩
    have h' : (strOK k && wfJ v && wfM JsonMembers.nil) = true := hwf
    rw [Bool.and_eq_true, Bool.and_eq_true] at h'
    have hneed : needM (JsonMembers.cons k v JsonMembers.nil)
        = 1 + needJ v + needM JsonMembers.nil := rfl
    have hnp := needJ_pos v
    have hfv : needJ v ≤ f' := by omega
    have hin : printMembers d (JsonMembers.cons k v JsonMembers.nil) ++
        ('\n' :: (ws2 ++ ('\x7d' :: rest))) =
        indentChars d ++ ('"' :: (k.data ++ ('"' :: (':' :: (' ' ::
          (printJ d v ++ ('\n' :: (ws2 ++ ('\x7d' :: rest))))))))) := by
      simp [printMembers, List.append_assoc]
    rw [hin]
    simp only [parseMembers]
    rw [skipWs_ws_append _ _ (indentChars_ws d)]
    simp only [skipWs_not '"' _ (by decide)]
    simp only [parseStrAux_print k.data _ (strOK_chars k h'.1.1)]
    simp only [skipWs_not ':' _ (by decide)]
    rw [show (' ' :: (printJ d v ++ ('\n' :: (ws2 ++ ('\x7d' :: rest)))))
        = [' '] ++ (printJ d v ++ ('\n' :: (ws2 ++ ('\x7d' :: rest)))) from rfl]
    rw [parseVal_ws f' (by omega) _ _ (wsCons ' ' (by decide) [] wsNil)]
    simp only [printParseJ v d ('\n' :: (ws2 ++ ('\x7d' :: rest))) f' h'.1.2 hfv rfl]
    have hskip : skipWs ('\n' :: (ws2 ++ ('\x7d' :: rest))) = '\x7d' :: rest := by
      rw [show ('\n' :: (ws2 ++ ('\x7d' :: rest))) = ('\n' :: ws2) ++ ('\x7d' :: rest) from rfl]
      rw [skipWs_ws_append _ _ (wsCons '\n' (by decide) ws2 hws2)]
      exact skipWs_not _ _ (by decide)
    simp only [hskip]
    rw [mk_data, insertKV_append k v acc (sorted_append_head _ _ _ hsort), appendM_concatM]
  | k, v, .cons k2 v2 tl, d, ws2, rest, f, acc, hwf, hfM, hws2, hsort => by
    obtain ⟨f', rfl⟩ : ∃ f2, f = f2 + 1 := ⟨f - 1, by omega⟩
    have h' : (strOK k && wfJ v && wfM (JsonMembers.cons k2 v2 tl)) = true := hwf
    rw [Bool.and_eq_true, Bool.and_eq_true] at h'
    have hneed : needM (JsonMembers.cons k v (JsonMembers.cons k2 v2 tl))
        = 1 + needJ v + needM (JsonMembers.cons k2 v2 tl) := rfl
    have hnp := needJ_pos v
    have hfv : needJ v ≤ f' := by omega
    have hin : printMembers d (JsonMembers.cons k v (JsonMembers.cons k2 v2 tl)) ++
        ('\n' :: (ws2 ++ ('\x7d' :: rest))) =
        indentChars d ++ ('"' :: (k.data ++ ('"' :: (':' :: (' ' ::
          (printJ d v ++ (',' :: ('\n' :: (printMembers d (JsonMembers.cons k2 v2 tl) ++
            ('\n' :: (ws2 ++ ('\x7d' :: rest)))))))))))) := by
      simp [printMembers, List.append_assoc]
    rw [hin]
    simp only [parseMembers]
    rw [skipWs_ws_append _ _ (indentChars_ws d)]
    simp only [skipWs_not '"' _ (by decide)]
    simp only [parseStrAux_print k.data _ (strOK_chars k h'.1.1)]
    simp only [skipWs_not ':' _ (by decide)]
    rw [show (' ' :: (printJ d v ++ (',' :: ('\n' :: (printMembers d (JsonMembers.cons k2 v2 tl) ++
        ('\n' :: (ws2 ++ ('\x7d' :: rest))))))))
        = [' '] ++ (printJ d v ++ (',' :: ('\n' :: (printMembers d (JsonMembers.cons k2 v2 tl) ++
        ('\n' :: (ws2 ++ ('\x7d' :: rest))))))) from rfl]
    rw [parseVal_ws f' (by omega) _ _ (wsCons ' ' (by decide) [] wsNil)]
    simp only [printParseJ v d
      (',' :: ('\n' :: (printMembers d (JsonMembers.cons k2 v2 tl) ++
        ('\n' :: (ws2 ++ ('\x7d' :: rest))))))
      f' h'.1.2 hfv rfl]
    simp only [skipWs_not ','
      ('\n' :: (printMembers d (JsonMembers.cons k2 v2 tl) ++ ('\n' :: (ws2 ++ ('\x7d' :: rest)))))
      (by decide)]
    rw [show ('\n' :: (printMembers d (JsonMembers.cons k2 v2 tl) ++
        ('\n' :: (ws2 ++ ('\x7d' :: rest)))))
        = ['\n'] ++ (printMembers d (JsonMembers.cons k2 v2 tl) ++
        ('\n' :: (ws2 ++ ('\x7d' :: rest)))) from rfl]
    rw [parseMembers_ws f' (by omega) _ _ _ (wsCons '\n' (by decide) [] wsNil)]
    have hinsert : insertKV k v acc = appendM acc k v :=
      insertKV_append k v acc (sorted_append_head _ _ _ hsort)
    rw [mk_data, hinsert]
    have hsort2 : sortedKeys (keysOfM (appendM acc k v) ++
        keysOfM (JsonMembers.cons k2 v2 tl)) = true := by
      rw [keysOfM_appendM, List.append_assoc]
      simpa [keysOfM] using hsort
    rw [printParseM k2 v2 tl d ws2 rest f' (appendM acc k v) h'.2
      (by have := needJ_pos v; omega) hws2 hsort2]
    rw [concatM_appendM]
termination_by _ v kvs _ _ _ _ _ => 1 + sizeOf v + sizeOf kvs
end

/-! ## Round trip of `fromStr` and `toStringPretty`, and claim C10 -/

theorem fromStr_wf (s : String) (v : Json) (h : fromStr s = some v) : wfJ v = true := by
  unfold fromStr at h
  cases hp : parseVal (2 * s.data.length + 2) s.data with
  | none => rw [hp] at h; cases h
  | some p =>
    obtain ⟨v2, r⟩ := p
    simp only [hp] at h
    by_cases hr : skipWs r = []
    · rw [if_pos hr] at h
      injection h with h2
      subst h2
      exact (parse_wf _).1 _ _ _ hp
    · rw [if_neg hr] at h; cases h

theorem fromStr_print (v : Json) (hwf : wfJ v = true) :
    fromStr (toStringPretty v) = some v := by
  unfold fromStr toStringPretty
  have hdata : (String.mk (printJ 0 v)).data = printJ 0 v := rfl
  rw [hdata]
  have hlen := printLenJ v 0
  have hP := printParseJ v 0 [] (2 * (printJ 0 v).length + 2) hwf (by omega) rfl
  rw [List.append_nil] at hP
  rw [hP]
  rfl

theorem parseVal_bad_head (f : Nat) (c : Char) (cs : List Char)
    (hws : isJsonWs c = false) (h1 : c ≠ 'n') (h2 : c ≠ 't') (h3 : c ≠ 'f')
    (h4 : c ≠ '"') (h5 : c ≠ '[') (h6 : c ≠ '\x7b') (h7 : c ≠ '-')
    (h8 : isDigitCh c = false) :
    parseVal f (c :: cs) = none := by
  cases f with
  | zero => rfl
  | succ f =>
    rw [parseVal_num_dispatch f c cs h1 h2 h3 h4 h5 h6 hws]
    have hil : parseIntLit (c :: cs) = none := by
      simp only [parseIntLit, if_neg h7]
      simp [takeDigits, h8]
    rw [hil]

theorem fromStr_binary_none (bs : List Nat) :
    fromStr ("Binary(" ++ bytesRepr bs ++ ")") = none := by
  have hdata : ("Binary(" ++ bytesRepr bs ++ ")").data =
      'B' :: ('i' :: 'n' :: 'a' :: 'r' :: 'y' :: '(' :: ((bytesRepr bs ++ ")").data)) := rfl
  unfold fromStr
  rw [hdata, parseVal_bad_head _ 'B' _ (by decide) (by decide) (by decide) (by decide)
    (by decide) (by decide) (by decide) (by decide) (by decide)]

/-- Claim C10: the transcript-body formatter is idempotent — feeding the
string produced by `pretty_print` with pretty-printing enabled back through
`pretty_print` as a text message yields the same string again: a JSON parse
re-serializes to itself, and non-JSON output (raw fallback text and the
`Binary(..)` description) passes through unchanged. -/
theorem c10_pretty_print_idempotent (m : Message) :
    pretty_print (Message.text (pretty_print m true)) true = pretty_print m true := by
  cases m with
  | binary bs =>
    show pretty_print (Message.text ("Binary(" ++ bytesRepr bs ++ ")")) true = _
    simp [pretty_print, fromStr_binary_none bs]
  | text raw =>
    cases hf : fromStr raw with
    | none => simp [pretty_print, hf]
    | some v =>
      have hwf := fromStr_wf raw v hf
      simp [pretty_print, hf, fromStr_print v hwf]

end WsProxy
